import Mathlib

/-!
Verification of a split-ordered lock-free hash map (sequential semantics).

The development shallowly embeds the two source files of the repository:

* src/split_ordered_list.rs: a map from keys in [0, 2^63-1] to values,
  stored in one globally sorted list keyed by bit-reversed keys, with a
  growable bucket table, lazy recursive bucket initialization, an atomic
  element count, and an advisory size-doubling rule.
* src/growable_array.rs: a lock-free growable array realized as a tree of
  segments of 2^SEGMENT_LOGSIZE slots, addressed by SEGMENT_LOGSIZE-bit
  groups of the index, most significant group at the root.

The embedding gives each operation its sequential semantics: every atomic
compare-and-swap succeeds (there is no concurrent interference), so the
retry loops of the source run exactly one iteration.  Pointers into the
shared list are represented by the key of the node they reference (nodes
are never relocated, and sentinel nodes are never removed, so this is a
faithful stable name); the cursor obtained from a bucket is the suffix of
the sorted list starting at the first key that is not below the bucket
sentinel key.  The panicking key-validity assertion of the source is
modelled as a hypothesis (key < 2^63) on every theorem.
-/

set_option linter.unusedVariables false
set_option maxRecDepth 10000

/-- Decidable equality on `Except`, so that results of the modelled
operations can be checked by evaluation. -/
instance {ε α : Type} [DecidableEq ε] [DecidableEq α] :
    DecidableEq (Except ε α) := fun x y =>
  match x, y with
  | .ok a, .ok b =>
    if h : a = b then .isTrue (by rw [h])
    else .isFalse (by intro hc; injection hc; contradiction)
  | .error a, .error b =>
    if h : a = b then .isTrue (by rw [h])
    else .isFalse (by intro hc; injection hc; contradiction)
  | .ok _, .error _ => .isFalse (by intro hc; cases hc)
  | .error _, .ok _ => .isFalse (by intro hc; cases hc)

namespace SplitOrdered

/-- Reversal of the low `w` bits of `n`: model of `usize::reverse_bits`
(for `w = 64` and `n < 2^64` this is exactly the Rust primitive). -/
def revBits : Nat → Nat → Nat
  | 0, _ => 0
  | w+1, n => n % 2 * 2 ^ w + revBits w (n / 2)

/-- 64-bit `reverse_bits`, as used by the source on `usize`. -/
def reverseBits64 (n : Nat) : Nat := revBits 64 n

/-- `SplitOrderedList::HI_MASK = 0x8000000000000000`. -/
def HI_MASK : Nat := 2 ^ 63

/-- `SplitOrderedList::LOAD_FACTOR`. -/
def LOAD_FACTOR : Nat := 2

/-- Sentinel key of bucket `b`: `b.reverse_bits()` (src/split_ordered_list.rs:59). -/
def sentKey (b : Nat) : Nat := reverseBits64 b

/-- Ordinary key of user key `k`: `(k | HI_MASK).reverse_bits()`
(src/split_ordered_list.rs:136 and :175). -/
def ordKey (k : Nat) : Nat := reverseBits64 (k ||| HI_MASK)

/-- An entry of the shared ordered list: key and optional payload
(`None` marks a sentinel node). -/
abbrev Entry (V : Type) := Nat × Option V

/-- Sorted insertion in front of the first entry whose key is not below the
new key: the position at which `Cursor::insert` splices a node after
`find_harris_michael` stopped. -/
def insertSorted : List (Entry V) → Nat → Option V → List (Entry V)
  | [], k, v => [(k, v)]
  | p :: t, k, v => if p.1 < k then p :: insertSorted t k v else (k, v) :: p :: t

/-- The suffix of the list a cursor anchored at the node with key `key`
traverses: everything from the first entry with key not below `key` on. -/
def cursorAt (l : List (Entry V)) (key : Nat) : List (Entry V) :=
  l.dropWhile (fun p => decide (p.1 < key))

/-- Payload stored at `key` (first matching entry), `none` if absent. -/
def listPayload (l : List (Entry V)) (key : Nat) : Option V :=
  match l.find? (fun p => p.1 == key) with
  | some p => p.2
  | none => none

/-- Number of live (non-sentinel) entries of the list. -/
def liveCount (l : List (Entry V)) : Nat :=
  (l.filter (fun p => p.2.isSome)).length

/-- State of `SplitOrderedList<V>`: the shared sorted list, the set of
bucket indices whose bucket slot is non-null, and the two atomic counters.
A non-null bucket slot for `b` always references the node with key
`sentKey b`, so recording the index set is a faithful rendering of the
bucket array. -/
structure SplitOrderedList (V : Type) where
  list : List (Entry V)
  buckets : List Nat
  size : Nat
  count : Nat

/-- `SplitOrderedList::default()` (src/split_ordered_list.rs:26-35). -/
def SplitOrderedList.new {V : Type} : SplitOrderedList V :=
  { list := [], buckets := [], size := 2, count := 0 }

/-- The loop of `get_parent`: halve `p` (starting from `size`) until the
result is not above `b`; the source halves once before the first test.
The fuel argument (first) only makes the loop structurally recursive:
`p` halvings always suffice, so with fuel `size` the function computes
exactly the source loop. -/
def downToLE : Nat → Nat → Nat → Nat
  | 0, p, _ => p / 2
  | fuel+1, p, b => if p / 2 ≤ b then p / 2 else downToLE fuel (p / 2) b

/-- `SplitOrderedList::get_parent` (src/split_ordered_list.rs:47-56),
with the loaded `size` passed explicitly. -/
def get_parent (size b : Nat) : Nat := b - downToLE size size b

/-- `SplitOrderedList::make_sentinel` (src/split_ordered_list.rs:58-82):
search for the sentinel key of `child` from the `parent` bucket position;
if found, return; otherwise insert the sentinel and record the child
bucket slot. -/
def make_sentinel (m : SplitOrderedList V) (parent child : Nat) : SplitOrderedList V :=
  let key := sentKey child
  if (cursorAt m.list (sentKey parent)).any (fun p => p.1 == key) then m
  else { m with list := insertSorted m.list key none, buckets := child :: m.buckets }

/-- The `bucket_index == 0` bootstrap of `initialize_bucket`
(src/split_ordered_list.rs:89-99): `harris_herlihy_shavit_insert(0, None)`
inserts the key-0 sentinel if absent, and only on success is bucket
slot 0 recorded. -/
def bootstrapZero (m : SplitOrderedList V) : SplitOrderedList V :=
  if m.list.any (fun p => p.1 == sentKey 0) then m
  else { m with list := insertSorted m.list (sentKey 0) none, buckets := 0 :: m.buckets }

/-- Body of `SplitOrderedList::initialize_bucket`
(src/split_ordered_list.rs:84-111), structurally recursive on a fuel
argument.  The recursive call happens when the parent slot is null; the
source's recursion terminates because `get_parent` strictly decreases
(see the claim 7 theorem), which the guard `parent < b` makes visible:
with fuel `b + 1` the fuel never runs out, so the guarded recursion
computes exactly the source's recursion.  (For `b = 0` the parent is `0`
and the source does not recurse either, because the bootstrap has
already initialized bucket 0.) -/
def initBucketGo : Nat → SplitOrderedList V → Nat → SplitOrderedList V
  | 0, m, _ => m
  | fuel+1, m, b =>
    let m1 := if b = 0 ∧ ¬ 0 ∈ m.buckets then bootstrapZero m else m
    let parent := get_parent m1.size b
    let m2 := if parent ∈ m1.buckets then m1
              else if parent < b then initBucketGo fuel m1 parent else m1
    make_sentinel m2 parent b

/-- `SplitOrderedList::initialize_bucket` (src/split_ordered_list.rs:84-111). -/
def initialize_bucket (m : SplitOrderedList V) (b : Nat) : SplitOrderedList V :=
  initBucketGo (b + 1) m b

/-- `SplitOrderedList::lookup_bucket` (src/split_ordered_list.rs:115-127):
initialize the bucket if its slot is null, then return a cursor anchored
at the bucket position. -/
def lookup_bucket (m : SplitOrderedList V) (index : Nat) :
    SplitOrderedList V × List (Entry V) :=
  let m1 := if index ∈ m.buckets then m else initialize_bucket m index
  (m1, cursorAt m1.list (sentKey index))

/-- `SplitOrderedList::find` (src/split_ordered_list.rs:131-146): move the
bucket cursor of `key % size` to the first entry with key not below the
ordinary key; report whether it matched exactly.  Sequentially the
search never observes a concurrent removal, so the retry loop runs once. -/
def find (m : SplitOrderedList V) (k : Nat) :
    SplitOrderedList V × Bool × List (Entry V) :=
  let key := ordKey k
  let b := k % m.size
  let mc := lookup_bucket m b
  let rest := mc.2.dropWhile (fun p => decide (p.1 < key))
  let found := match rest with
    | [] => false
    | p :: _ => p.1 == key
  (mc.1, found, rest)

/-- `SplitOrderedList::lookup` (src/split_ordered_list.rs:154-170).
Returns the (possibly bucket-initialized) state and the result. -/
def SplitOrderedList.lookup (m : SplitOrderedList V) (k : Nat) :
    SplitOrderedList V × Option V :=
  let fr := find m k
  match fr.2.1, fr.2.2 with
  | true, p :: _ => (fr.1, p.2)
  | _, _ => (fr.1, none)

/-- `SplitOrderedList::insert` (src/split_ordered_list.rs:172-197).
`Result<(), V>` becomes `Except V Unit`.  The source's
`self.count.fetch_add(1)` returns the value of `count` from before the
increment, and that old value is what the load-factor test divides. -/
def SplitOrderedList.insert (m : SplitOrderedList V) (k : Nat) (v : V) :
    SplitOrderedList V × Except V Unit :=
  let fr := find m k
  let m1 := fr.1
  if fr.2.1 then (m1, Except.error v)
  else
    let m2 := { m1 with list := insertSorted m1.list (ordKey k) (some v) }
    let countOld := m2.count
    let m3 := { m2 with count := countOld + 1 }
    let m4 := if countOld / m3.size > LOAD_FACTOR then { m3 with size := m3.size * 2 }
              else m3
    (m4, Except.ok ())

/-- `SplitOrderedList::delete` (src/split_ordered_list.rs:199-215).
`Result<&V, ()>` becomes `Except Unit V`.  On a successful physical
delete the count is decremented and the removed payload returned;
an empty payload is reported as not-found (after the decrement). -/
def SplitOrderedList.delete (m : SplitOrderedList V) (k : Nat) :
    SplitOrderedList V × Except Unit V :=
  let fr := find m k
  let m1 := fr.1
  match fr.2.1, fr.2.2 with
  | true, p :: _ =>
      ({ m1 with list := m1.list.eraseP (fun q => q.1 == ordKey k),
                 count := m1.count - 1 },
       match p.2 with
       | some v => Except.ok v
       | none => Except.error ())
  | _, _ => (m1, Except.error ())

/-- A map operation of the public interface. -/
inductive Op (V : Type) where
  | ins (k : Nat) (v : V)
  | del (k : Nat)
  | look (k : Nat)

/-- The key an operation addresses. -/
def Op.key : Op V → Nat
  | .ins k _ => k
  | .del k => k
  | .look k => k

/-- State transformer of one operation (result discarded). -/
def stepOp (m : SplitOrderedList V) : Op V → SplitOrderedList V
  | .ins k v => (m.insert k v).1
  | .del k => (m.delete k).1
  | .look k => (m.lookup k).1

/-- Run a sequence of operations from a state. -/
def runOps (m : SplitOrderedList V) (ops : List (Op V)) : SplitOrderedList V :=
  ops.foldl stepOp m

/-- Abstract (specification-level) effect of one operation on a functional
map: insert succeeds only on an absent key, delete clears the key. -/
def specF (f : Nat → Option V) : Op V → (Nat → Option V)
  | .ins k v =>
      match f k with
      | none => fun q => if q = k then some v else f q
      | some _ => f
  | .del k => fun q => if q = k then none else f q
  | .look _ => f

/-- Abstract map denoted by a sequence of operations run from the empty map. -/
def specMap (ops : List (Op V)) : Nat → Option V :=
  ops.foldl specF (fun _ => none)

/-- Well-formedness of the shared list maintained by every reachable state:
keys strictly sorted, and an entry carries a payload exactly when its key
is odd (ordinary keys are odd because the forced top bit reverses to bit
zero; sentinel keys of buckets below 2^63 are even). -/
structure ListOK (l : List (Entry V)) : Prop where
  sorted : l.Pairwise (fun p q => p.1 < q.1)
  parity : ∀ p ∈ l, p.2.isSome = true ↔ p.1 % 2 = 1

/-- Coupling invariant between a concrete state and the abstract map. -/
structure Inv (m : SplitOrderedList V) (f : Nat → Option V) : Prop where
  ok : ListOK m.list
  pow : ∃ j, m.size = 2 ^ j
  two_le : 2 ≤ m.size
  abs : ∀ k, k < 2 ^ 63 → listPayload m.list (ordKey k) = f k
  cnt : m.count = liveCount m.list

/-- `m1` extends `m` by (at most) fresh sentinel entries: the counters, the
live entries, and the payload visible at any odd key are unchanged, and
list well-formedness is preserved.  This is the effect bucket
initialization has on a state. -/
def SentinelExt (m m1 : SplitOrderedList V) : Prop :=
  m1.size = m.size ∧ m1.count = m.count ∧
  m1.list.filter (fun p => p.2.isSome) = m.list.filter (fun p => p.2.isSome) ∧
  (∀ K, K % 2 = 1 → listPayload m1.list K = listPayload m.list K) ∧
  (ListOK m.list → ListOK m1.list)

end SplitOrdered

namespace GrowableArray

/-- `SEGMENT_LOGSIZE` (src/growable_array.rs:136). -/
def SEGMENT_LOGSIZE : Nat := 10

/-- `GrowableArray::get_bits_at` (src/growable_array.rs:227-237): shift the
mask to group `at_`, select, and shift back. -/
def get_bits_at (index mask at_ : Nat) : Nat :=
  (index &&& (mask <<< (at_ * SEGMENT_LOGSIZE))) >>> (at_ * SEGMENT_LOGSIZE)

/-- Bit length of the low `fuel` bits of `n` (structural helper). -/
def bitLen : Nat → Nat → Nat
  | 0, _ => 0
  | fuel+1, n => if n = 0 then 0 else bitLen fuel (n / 2) + 1

/-- `GrowableArray::get_msb_index` (src/growable_array.rs:239-243):
`64 - index.leading_zeros()`, the bit length of the index (the source
operates on a 64-bit `usize`). -/
def get_msb_index (index : Nat) : Nat := bitLen 64 index

/-- Heap-style state of a `GrowableArray`: the tagged root pointer (address
and height tag, `none` for null), a fresh-address counter, and the set of
non-null segment slots, each recording the stored child pointer with its
packed height tag (`ensure_root_height` stores the old root pointer with
its tag; `get_val_at_index` installs children tagged `height - 1`). -/
structure GAState where
  root : Option (Nat × Nat)
  next : Nat
  slots : List ((Nat × Nat) × (Nat × Nat))

/-- `GrowableArray::new()` (src/growable_array.rs:201-206). -/
def GAState.new : GAState := { root := none, next := 0, slots := [] }

/-- The height tag of the root pointer (a null pointer has tag 0). -/
def rootTag (st : GAState) : Nat :=
  match st.root with
  | none => 0
  | some rt => rt.2

/-- Contents of segment slot `a` (`none` models a null slot). -/
def slotLookup (s : List ((Nat × Nat) × (Nat × Nat))) (a : Nat × Nat) :
    Option (Nat × Nat) :=
  (s.find? (fun e => e.1 == a)).map (fun e => e.2)

/-- `GrowableArray::ensure_root_height` (src/growable_array.rs:245-268):
while the root tag is below `h`, allocate a segment, store the old tagged
root into its slot 0, and swap the root to the new segment tagged one
higher.  Sequentially every compare-and-set succeeds.  The loop raises
the root tag by one per iteration, so fuel `h` (first argument of the
structurally recursive worker) never runs out. -/
def ensureRootGo : Nat → GAState → Nat → GAState
  | 0, st, _ => st
  | fuel+1, st, h =>
    if rootTag st < h then
      let a := st.next
      let slots1 := match st.root with
        | none => st.slots
        | some rt => ((a, 0), rt) :: st.slots
      ensureRootGo fuel { root := some (a, rootTag st + 1), next := a + 1, slots := slots1 } h
    else st

/-- `GrowableArray::ensure_root_height` (src/growable_array.rs:245-268). -/
def ensure_root_height (st : GAState) (h : Nat) : GAState :=
  ensureRootGo h st h

/-- The descent loop of `GrowableArray::get_val_at_index`
(src/growable_array.rs:270-303), with explicit fuel standing for the
loop's unbounded iteration (on well-formed heaps the tags strictly
decrease, so fuel `tag + 1` always suffices; see the claim 9 theorem).
Selects the `tag - 1` bit group, returns the leaf slot at tag 1, and
installs a fresh child segment tagged `tag - 1` in a null slot. -/
def descend : Nat → GAState → Nat → Nat → Nat → Option (GAState × (Nat × Nat))
  | 0, _, _, _, _ => none
  | fuel+1, st, addr, tag, index =>
    let mask : Nat := (1 <<< SEGMENT_LOGSIZE) - 1
    let ind := get_bits_at index mask (tag - 1)
    if tag = 1 then some (st, (addr, ind))
    else
      match slotLookup st.slots (addr, ind) with
      | some ct => descend fuel st ct.1 ct.2 index
      | none =>
        let c := st.next
        let st1 := { st with next := c + 1,
                             slots := ((addr, ind), (c, tag - 1)) :: st.slots }
        descend fuel st1 c (tag - 1) index

/-- `GrowableArray::get_val_at_index` (src/growable_array.rs:270-303). -/
def get_val_at_index (st : GAState) (index : Nat) : Option (GAState × (Nat × Nat)) :=
  match st.root with
  | none => none
  | some rt => descend (rt.2 + 1) st rt.1 rt.2 index

/-- `GrowableArray::get` (src/growable_array.rs:307-328): create a height-1
root if the root is null, ensure the root height covers the index's most
significant bit, and descend.  Returns the reference (segment address and
offset) of the slot for `index`. -/
def get (st : GAState) (index : Nat) : Option (GAState × (Nat × Nat)) :=
  let msb := get_msb_index index
  let st1 := match st.root with
    | none => { st with root := some (st.next, 1), next := st.next + 1 }
    | some _ => st
  let h := if msb % SEGMENT_LOGSIZE = 0 then msb / SEGMENT_LOGSIZE
           else msb / SEGMENT_LOGSIZE + 1
  let st2 := ensure_root_height st1 h
  get_val_at_index st2 index

/-- Read-only resolution of `index` to a slot: the descent path as far as
it is already materialized (`none` if a slot on the path is still null).
Proof-side notion used to state slot stability. -/
def descendRO : Nat → GAState → Nat → Nat → Nat → Option (Nat × Nat)
  | 0, _, _, _, _ => none
  | fuel+1, st, addr, tag, index =>
    let mask : Nat := (1 <<< SEGMENT_LOGSIZE) - 1
    let ind := get_bits_at index mask (tag - 1)
    if tag = 1 then some (addr, ind)
    else
      match slotLookup st.slots (addr, ind) with
      | some ct => descendRO fuel st ct.1 ct.2 index
      | none => none

/-- The slot `index` currently resolves to, if its path is materialized. -/
def resolve (st : GAState) (index : Nat) : Option (Nat × Nat) :=
  match st.root with
  | none => none
  | some rt => descendRO (rt.2 + 1) st rt.1 rt.2 index

/-- Run a sequence of `get` calls, keeping the state. -/
def runGets (st : GAState) (l : List Nat) : GAState :=
  l.foldl (fun s j => match get s j with
    | some sj => sj.1
    | none => s) st

/-- Slot monotonicity: every non-null slot keeps its contents. -/
def SlotExt (st st1 : GAState) : Prop :=
  ∀ a v, slotLookup st.slots a = some v → slotLookup st1.slots a = some v

/-- Well-formedness of a heap state with respect to a height assignment
`ht` for segment addresses: the root tag is the root segment's height (at
least 1), every filled slot of a height-`t+1` segment holds a segment of
height `t ≥ 1` tagged `t`, and all addresses are below the allocation
counter. -/
structure WF (st : GAState) (ht : Nat → Nat) : Prop where
  root_ht : ∀ a t, st.root = some (a, t) → ht a = t ∧ 1 ≤ t ∧ a < st.next
  slot_ht : ∀ e ∈ st.slots,
    ht e.1.1 = e.2.2 + 1 ∧ ht e.2.1 = e.2.2 ∧ 1 ≤ e.2.2 ∧
    e.1.1 < st.next ∧ e.2.1 < st.next

end GrowableArray

namespace SplitOrdered

/-! ### Arithmetic of bit reversal -/

theorem revBits_zero (w : Nat) : revBits w 0 = 0 := by
  induction w with
  | zero => rfl
  | succ w ih => simp [revBits, ih]

theorem revBits_lt (w : Nat) : ∀ n, revBits w n < 2 ^ w := by
  induction w with
  | zero => intro n; simp [revBits]
  | succ w ih =>
    intro n
    have h2 := ih (n / 2)
    have h3 : n % 2 * 2 ^ w ≤ 2 ^ w := by
      have hm : n % 2 ≤ 1 := by omega
      calc n % 2 * 2 ^ w ≤ 1 * 2 ^ w := Nat.mul_le_mul_right _ hm
        _ = 2 ^ w := Nat.one_mul _
    have hp : 2 ^ (w + 1) = 2 ^ w + 2 ^ w := by rw [Nat.pow_succ]; omega
    simp only [revBits]
    omega

theorem revBits_split (j : Nat) : ∀ w n, j ≤ w →
    revBits w n = revBits j (n % 2 ^ j) * 2 ^ (w - j) + revBits (w - j) (n / 2 ^ j) := by
  induction j with
  | zero => intro w n _; simp [revBits]
  | succ j ih =>
    intro w n hjw
    cases w with
    | zero => omega
    | succ w =>
      have hj : j ≤ w := by omega
      have e1 : revBits (w+1) n = n % 2 * 2 ^ w + revBits w (n / 2) := rfl
      have e2 : revBits (j+1) (n % 2 ^ (j+1)) =
          (n % 2 ^ (j+1)) % 2 * 2 ^ j + revBits j ((n % 2 ^ (j+1)) / 2) := rfl
      have m1 : (n % 2 ^ (j+1)) % 2 = n % 2 :=
        Nat.mod_mod_of_dvd n (dvd_pow_self 2 (Nat.succ_ne_zero j))
      have m2 : (n % 2 ^ (j+1)) / 2 = (n / 2) % 2 ^ j := by
        have h2 : (2 : Nat) ^ (j+1) = 2 * 2 ^ j := by
          rw [Nat.pow_succ]; omega
        rw [h2, Nat.mod_mul_right_div_self]
      have m3 : n / 2 ^ (j+1) = (n / 2) / 2 ^ j := by
        rw [Nat.div_div_eq_div_mul]
        congr 1
        rw [Nat.pow_succ]; omega
      have hsub : w + 1 - (j + 1) = w - j := by omega
      rw [e1, ih w (n / 2) hj, e2, m1, m2, m3, hsub]
      have hpow : 2 ^ j * 2 ^ (w - j) = 2 ^ w := by
        rw [← pow_add]; congr 1; omega
      rw [Nat.add_mul, Nat.mul_assoc, hpow]
      omega

theorem revBits_mod_two : ∀ w n, 1 ≤ w → revBits w n % 2 = n / 2 ^ (w - 1) % 2 := by
  intro w
  induction w with
  | zero => intro n h; omega
  | succ w ih =>
    intro n _
    by_cases hw : w = 0
    · subst hw
      show (n % 2 * 2 ^ 0 + revBits 0 (n / 2)) % 2 = n / 2 ^ 0 % 2
      simp [revBits]
    · have h1 : 1 ≤ w := Nat.one_le_iff_ne_zero.mpr hw
      have e1 : revBits (w+1) n = n % 2 * 2 ^ w + revBits w (n / 2) := rfl
      have hp : (2 : Nat) ^ w = 2 ^ (w - 1) * 2 := by
        rw [← Nat.pow_succ]; congr 1; omega
      rw [e1, hp, ← Nat.mul_assoc, Nat.add_comm, Nat.add_mul_mod_self_right,
        ih (n / 2) h1]
      have hd : n / 2 / 2 ^ (w - 1) = n / 2 ^ w := by
        rw [Nat.div_div_eq_div_mul]
        congr 1
        rw [hp]; omega
      rw [hd, Nat.add_sub_cancel]

theorem revBits_inj : ∀ w a b, a < 2 ^ w → b < 2 ^ w → revBits w a = revBits w b → a = b := by
  intro w
  induction w with
  | zero => intro a b ha hb _; omega
  | succ w ih =>
    intro a b ha hb he
    have ea : revBits (w+1) a = a % 2 * 2 ^ w + revBits w (a / 2) := rfl
    have eb : revBits (w+1) b = b % 2 * 2 ^ w + revBits w (b / 2) := rfl
    have la := revBits_lt w (a / 2)
    have lb := revBits_lt w (b / 2)
    rw [ea, eb] at he
    have hmod : a % 2 = b % 2 ∧ revBits w (a / 2) = revBits w (b / 2) := by
      rcases Nat.mod_two_eq_zero_or_one a with h1 | h1 <;>
        rcases Nat.mod_two_eq_zero_or_one b with h2 | h2 <;>
        rw [h1, h2] at he <;> omega
    have hp : (2 : Nat) ^ (w + 1) = 2 ^ w * 2 := Nat.pow_succ 2 w
    have hda : a / 2 < 2 ^ w := by omega
    have hdb : b / 2 < 2 ^ w := by omega
    have := ih (a / 2) (b / 2) hda hdb hmod.2
    omega

theorem revBits_add_pow {w t a : Nat} (ha : a < 2 ^ t) (ht : t < w) :
    revBits w (a + 2 ^ t) = revBits w a + 2 ^ (w - 1 - t) := by
  have hps : (2 : Nat) ^ (t + 1) = 2 ^ t * 2 := Nat.pow_succ 2 t
  have hx : a + 2 ^ t < 2 ^ (t + 1) := by omega
  have hxa : a < 2 ^ (t + 1) := by omega
  have s1 := revBits_split (t+1) w (a + 2 ^ t) ht
  have s2 := revBits_split (t+1) w a ht
  rw [Nat.mod_eq_of_lt hx, Nat.div_eq_of_lt hx] at s1
  rw [Nat.mod_eq_of_lt hxa, Nat.div_eq_of_lt hxa] at s2
  have s3 := revBits_split t (t+1) (a + 2 ^ t) (Nat.le_succ t)
  have s4 := revBits_split t (t+1) a (Nat.le_succ t)
  have m3 : (a + 2 ^ t) % 2 ^ t = a := by
    rw [Nat.add_mod_right, Nat.mod_eq_of_lt ha]
  have d3 : (a + 2 ^ t) / 2 ^ t = 1 := by
    rw [Nat.add_div_right _ (Nat.pos_pow_of_pos t (by omega)), Nat.div_eq_of_lt ha]
  have m4 : a % 2 ^ t = a := Nat.mod_eq_of_lt ha
  have d4 : a / 2 ^ t = 0 := Nat.div_eq_of_lt ha
  have hsub : t + 1 - t = 1 := by omega
  rw [m3, d3, hsub] at s3
  rw [m4, d4, hsub] at s4
  have r1 : revBits 1 1 = 1 := rfl
  have r0 : revBits 1 0 = 0 := rfl
  have c3 : revBits (t+1) (a + 2 ^ t) = revBits t a * 2 + 1 := by
    rw [s3, r1]; norm_num
  have c4 : revBits (t+1) a = revBits t a * 2 := by
    rw [s4, r0]; norm_num
  have hsub2 : w - 1 - t = w - (t + 1) := by omega
  rw [s1, s2, c3, c4, revBits_zero, hsub2, Nat.add_mul, Nat.one_mul]
  omega

theorem revBits_odd {w n : Nat} (hw : 1 ≤ w) (h1 : 2 ^ (w - 1) ≤ n) (h2 : n < 2 ^ w) :
    revBits w n % 2 = 1 := by
  rw [revBits_mod_two w n hw]
  have hp : (2 : Nat) ^ w = 2 ^ (w - 1) * 2 := by
    rw [← Nat.pow_succ]; congr 1; omega
  have hpos : 0 < 2 ^ (w - 1) := Nat.pos_pow_of_pos _ (by omega)
  have hd : n / 2 ^ (w - 1) = 1 := by
    have hle : 1 ≤ n / 2 ^ (w - 1) := (Nat.one_le_div_iff hpos).mpr h1
    have hlt : n / 2 ^ (w - 1) < 2 := by
      apply Nat.div_lt_of_lt_mul
      omega
    omega
  rw [hd]

theorem revBits_even {w n : Nat} (hw : 1 ≤ w) (h2 : n < 2 ^ (w - 1)) :
    revBits w n % 2 = 0 := by
  rw [revBits_mod_two w n hw, Nat.div_eq_of_lt h2]

theorem lor_two_pow_of_lt {k c : Nat} (h : k < 2 ^ c) : k ||| 2 ^ c = k + 2 ^ c := by
  apply Nat.eq_of_testBit_eq
  intro i
  rw [Nat.testBit_or]
  rcases Nat.lt_trichotomy i c with hic | hic | hic
  · rw [Nat.testBit_two_pow_of_ne (by omega : c ≠ i),
      Nat.add_comm k, Nat.testBit_two_pow_add_gt hic]
    simp
  · subst hic
    have hk : k.testBit i = false := Nat.testBit_lt_two_pow h
    rw [Nat.add_comm k, Nat.testBit_two_pow_add_eq, hk, Nat.testBit_two_pow_self]
    simp
  · have hci : (2 : Nat) ^ (c + 1) ≤ 2 ^ i := Nat.pow_le_pow_right (by omega) hic
    have hps : (2 : Nat) ^ (c + 1) = 2 ^ c * 2 := Nat.pow_succ 2 c
    have hsum : k + 2 ^ c < 2 ^ i := by omega
    have hki : k < 2 ^ i := by omega
    rw [Nat.testBit_lt_two_pow hsum, Nat.testBit_lt_two_pow hki,
      Nat.testBit_two_pow_of_ne (by omega : c ≠ i)]
    simp

theorem sentKey_lt_ordKey_aux {k j : Nat} (hk : k < 2 ^ 63) (hj : j ≤ 63) :
    revBits 64 (k % 2 ^ j) < revBits 64 (k + 2 ^ 63) := by
  have hjpos : 0 < 2 ^ j := Nat.pos_pow_of_pos _ (by omega)
  have s1 := revBits_split j 64 (k % 2 ^ j) (by omega)
  have s2 := revBits_split j 64 (k + 2 ^ 63) (by omega)
  have e1 : (k % 2 ^ j) % 2 ^ j = k % 2 ^ j := Nat.mod_mod_of_dvd k (dvd_refl _)
  have e2 : (k % 2 ^ j) / 2 ^ j = 0 := Nat.div_eq_of_lt (Nat.mod_lt _ hjpos)
  have e3 : (k + 2 ^ 63) % 2 ^ j = k % 2 ^ j := by
    obtain ⟨c, hc⟩ : (2 : Nat) ^ j ∣ 2 ^ 63 := pow_dvd_pow 2 hj
    rw [hc, Nat.add_mul_mod_self_left]
  have hc : (2 : Nat) ^ (63 - j) * 2 ^ j = 2 ^ 63 := by
    rw [← pow_add, Nat.sub_add_cancel hj]
  have e4 : (k + 2 ^ 63) / 2 ^ j = k / 2 ^ j + 2 ^ (63 - j) := by
    rw [← hc, Nat.add_mul_div_right _ _ hjpos]
  rw [s1, s2, e1, e2, e3, e4, revBits_zero]
  have hpos : 0 < revBits (64 - j) (k / 2 ^ j + 2 ^ (63 - j)) := by
    have hw : 1 ≤ 64 - j := by omega
    have hd : k / 2 ^ j < 2 ^ (63 - j) := by
      apply Nat.div_lt_of_lt_mul
      rw [← pow_add, Nat.add_sub_cancel' hj]
      exact hk
    have hlo : 2 ^ (64 - j - 1) ≤ k / 2 ^ j + 2 ^ (63 - j) := by
      have hsub : 64 - j - 1 = 63 - j := by omega
      rw [hsub]
      exact Nat.le_add_left _ _
    have hhi : k / 2 ^ j + 2 ^ (63 - j) < 2 ^ (64 - j) := by
      have hsu : 63 - j + 1 = 64 - j := by omega
      have hps : (2 : Nat) ^ (64 - j) = 2 ^ (63 - j) * 2 := by
        rw [← hsu, Nat.pow_succ]
      omega
    have := revBits_odd hw hlo hhi
    omega
  omega

theorem sentKey_lt_ordKey {k : Nat} (hk : k < 2 ^ 63) (j : Nat) :
    sentKey (k % 2 ^ j) < ordKey k := by
  have hlor : k ||| HI_MASK = k + 2 ^ 63 := lor_two_pow_of_lt hk
  show revBits 64 (k % 2 ^ j) < revBits 64 (k ||| HI_MASK)
  rw [hlor]
  by_cases hj : j ≤ 63
  · exact sentKey_lt_ordKey_aux hk hj
  · have hbig : k < 2 ^ j := lt_of_lt_of_le hk (Nat.pow_le_pow_right (by omega) (by omega))
    rw [Nat.mod_eq_of_lt hbig]
    have haux := sentKey_lt_ordKey_aux hk (Nat.le_refl 63)
    rwa [Nat.mod_eq_of_lt hk] at haux

theorem ordKey_odd {k : Nat} (hk : k < 2 ^ 63) : ordKey k % 2 = 1 := by
  have hlor : k ||| HI_MASK = k + 2 ^ 63 := lor_two_pow_of_lt hk
  show revBits 64 (k ||| HI_MASK) % 2 = 1
  rw [hlor]
  apply revBits_odd (by omega)
  · show 2 ^ (64 - 1) ≤ k + 2 ^ 63
    norm_num
  · have hp : (2 : Nat) ^ 64 = 2 ^ 63 * 2 := Nat.pow_succ 2 63
    omega

theorem sentKey_even {b : Nat} (hb : b < 2 ^ 63) : sentKey b % 2 = 0 := by
  show revBits 64 b % 2 = 0
  apply revBits_even (by omega)
  show b < 2 ^ (64 - 1)
  norm_num at hb ⊢
  omega

theorem ordKey_inj {k1 k2 : Nat} (h1 : k1 < 2 ^ 63) (h2 : k2 < 2 ^ 63)
    (he : ordKey k1 = ordKey k2) : k1 = k2 := by
  have e1 : k1 ||| HI_MASK = k1 + 2 ^ 63 := lor_two_pow_of_lt h1
  have e2 : k2 ||| HI_MASK = k2 + 2 ^ 63 := lor_two_pow_of_lt h2
  have he2 : revBits 64 (k1 + 2 ^ 63) = revBits 64 (k2 + 2 ^ 63) := by
    rw [← e1, ← e2]; exact he
  have hp : (2 : Nat) ^ 64 = 2 ^ 63 * 2 := Nat.pow_succ 2 63
  have := revBits_inj 64 _ _ (by omega) (by omega) he2
  omega

theorem sentKey_lt_of_clear_top {b t : Nat} (h1 : 2 ^ t ≤ b) (h2 : b < 2 ^ (t + 1))
    (hb : b < 2 ^ 63) : sentKey (b - 2 ^ t) < sentKey b := by
  obtain ⟨a, rfl⟩ : ∃ a, b = a + 2 ^ t := ⟨b - 2 ^ t, by omega⟩
  have hps : (2 : Nat) ^ (t + 1) = 2 ^ t * 2 := Nat.pow_succ 2 t
  have ha : a < 2 ^ t := by omega
  have ht : t < 63 := by
    by_contra hcon
    have : (2 : Nat) ^ 63 ≤ 2 ^ t := Nat.pow_le_pow_right (by omega) (by omega)
    omega
  show revBits 64 (a + 2 ^ t - 2 ^ t) < revBits 64 (a + 2 ^ t)
  have he : a + 2 ^ t - 2 ^ t = a := by omega
  rw [he, revBits_add_pow ha (by omega : t < 64)]
  have : 0 < 2 ^ (64 - 1 - t) := Nat.pos_pow_of_pos _ (by omega)
  omega

end SplitOrdered

namespace SplitOrdered

/-! ### Characterization of the parent computation -/

theorem downToLE_pow : ∀ j fuel b, 1 ≤ b → b < 2 ^ j → j ≤ fuel →
    ∃ t, 2 ^ t ≤ b ∧ b < 2 ^ (t + 1) ∧ downToLE fuel (2 ^ j) b = 2 ^ t := by
  intro j
  induction j with
  | zero =>
    intro fuel b h1 h2 _
    norm_num at h2
    omega
  | succ j ih =>
    intro fuel b h1 h2 hf
    cases fuel with
    | zero => omega
    | succ fuel =>
      have hdiv : 2 ^ (j + 1) / 2 = 2 ^ j := by
        rw [Nat.pow_succ, Nat.mul_div_cancel _ (by omega : 0 < 2)]
      simp only [downToLE, hdiv]
      by_cases hle : 2 ^ j ≤ b
      · rw [if_pos hle]
        exact ⟨j, hle, h2, rfl⟩
      · rw [if_neg hle]
        exact ih fuel b h1 (by omega) (by omega)

theorem get_parent_zero (s : Nat) : get_parent s 0 = 0 := by
  unfold get_parent
  omega

theorem get_parent_char {size b j : Nat} (hsz : size = 2 ^ j) (h0 : 0 < b)
    (hlt : b < size) :
    ∃ t, 2 ^ t ≤ b ∧ b < 2 ^ (t + 1) ∧ get_parent size b = b - 2 ^ t ∧
      get_parent size b < b := by
  subst hsz
  obtain ⟨t, h1, h2, h3⟩ :=
    downToLE_pow j (2 ^ j) b h0 hlt (Nat.le_of_lt (Nat.lt_two_pow j))
  have hp : 0 < 2 ^ t := Nat.two_pow_pos t
  unfold get_parent
  rw [h3]
  exact ⟨t, h1, h2, rfl, by omega⟩

/-! ### List lemmas -/

theorem mem_insertSorted {l : List (Entry V)} {k : Nat} {v : Option V} :
    ∀ x ∈ insertSorted l k v, x = (k, v) ∨ x ∈ l := by
  induction l with
  | nil =>
    intro x hx
    simp only [insertSorted, List.mem_singleton] at hx
    exact Or.inl hx
  | cons p t ih =>
    intro x hx
    by_cases h : p.1 < k
    · simp only [insertSorted, if_pos h, List.mem_cons] at hx
      rcases hx with hx | hx
      · right; simp [hx]
      · rcases ih x hx with h1 | h1
        · exact Or.inl h1
        · right; simp [h1]
    · simp only [insertSorted, if_neg h, List.mem_cons] at hx
      rcases hx with hx | hx
      · exact Or.inl hx
      · right; simpa using hx

theorem insertSorted_pairwise {l : List (Entry V)} {k : Nat} {v : Option V}
    (hs : l.Pairwise (fun p q => p.1 < q.1)) (habs : ∀ p ∈ l, p.1 ≠ k) :
    (insertSorted l k v).Pairwise (fun p q => p.1 < q.1) := by
  induction l with
  | nil => simp [insertSorted]
  | cons p t ih =>
    rcases List.pairwise_cons.mp hs with ⟨hp, ht⟩
    by_cases h : p.1 < k
    · simp only [insertSorted, if_pos h]
      apply List.pairwise_cons.mpr
      refine ⟨?_, ih ht (fun q hq => habs q (List.mem_cons_of_mem p hq))⟩
      intro x hx
      rcases mem_insertSorted x hx with rfl | hx2
      · exact h
      · exact hp x hx2
    · simp only [insertSorted, if_neg h]
      have hk : k < p.1 := by
        rcases Nat.lt_or_ge k p.1 with h1 | h1
        · exact h1
        · exact absurd (by omega : p.1 = k) (habs p (List.mem_cons_self p t))
      apply List.pairwise_cons.mpr
      refine ⟨?_, hs⟩
      intro x hx
      rcases List.mem_cons.mp hx with rfl | hx2
      · exact hk
      · exact lt_trans hk (hp x hx2)

theorem find?_insertSorted_ne {l : List (Entry V)} {k q : Nat} {v : Option V}
    (hne : k ≠ q) :
    (insertSorted l k v).find? (fun p => p.1 == q) = l.find? (fun p => p.1 == q) := by
  induction l with
  | nil =>
    simp only [insertSorted]
    rw [List.find?_cons_of_neg _ (by simp [hne]), List.find?_nil]
  | cons p t ih =>
    by_cases h : p.1 < k
    · simp only [insertSorted, if_pos h]
      by_cases hpq : p.1 = q
      · rw [List.find?_cons_of_pos _ (by simp [hpq]),
          List.find?_cons_of_pos _ (by simp [hpq])]
      · rw [List.find?_cons_of_neg _ (by simp [hpq]),
          List.find?_cons_of_neg _ (by simp [hpq]), ih]
    · simp only [insertSorted, if_neg h]
      rw [List.find?_cons_of_neg _ (by simp [hne])]

theorem listPayload_insertSorted_ne {l : List (Entry V)} {k q : Nat} {v : Option V}
    (hne : k ≠ q) :
    listPayload (insertSorted l k v) q = listPayload l q := by
  unfold listPayload
  rw [find?_insertSorted_ne hne]

theorem listPayload_insertSorted_self {l : List (Entry V)} {k : Nat} {v : Option V} :
    listPayload (insertSorted l k v) k = v := by
  induction l with
  | nil =>
    simp only [insertSorted, listPayload]
    rw [List.find?_cons_of_pos _ (by simp)]
  | cons p t ih =>
    by_cases h : p.1 < k
    · unfold listPayload at ih ⊢
      simp only [insertSorted, if_pos h]
      rw [List.find?_cons_of_neg _ (by simp only [beq_iff_eq]; omega)]
      exact ih
    · unfold listPayload
      simp only [insertSorted, if_neg h]
      rw [List.find?_cons_of_pos _ (by simp)]

theorem filter_insertSorted_none {l : List (Entry V)} {k : Nat} :
    (insertSorted l k none).filter (fun p => p.2.isSome) =
      l.filter (fun p => p.2.isSome) := by
  induction l with
  | nil => simp [insertSorted]
  | cons p t ih =>
    by_cases h : p.1 < k
    · simp only [insertSorted, if_pos h, List.filter_cons, ih]
    · simp only [insertSorted, if_neg h, List.filter_cons]
      simp

theorem liveCount_insertSorted_some {l : List (Entry V)} {k : Nat} {v : V} :
    liveCount (insertSorted l k (some v)) = liveCount l + 1 := by
  induction l with
  | nil => simp [insertSorted, liveCount]
  | cons p t ih =>
    by_cases h : p.1 < k
    · unfold liveCount at ih ⊢
      simp only [insertSorted, if_pos h, List.filter_cons]
      by_cases hp : p.2.isSome <;> simp [hp, ih]
    · unfold liveCount
      simp only [insertSorted, if_neg h, List.filter_cons]
      simp

theorem dropWhile_dropWhile {α : Type} {p q : α → Bool} {l : List α}
    (himp : ∀ x, q x = true → p x = true) :
    (l.dropWhile q).dropWhile p = l.dropWhile p := by
  induction l with
  | nil => rfl
  | cons a t ih =>
    by_cases hq : q a
    · rw [List.dropWhile_cons_of_pos hq, List.dropWhile_cons_of_pos (himp a hq), ih]
    · rw [List.dropWhile_cons_of_neg hq]

theorem mem_dropWhile_of_not {α : Type} {p : α → Bool} {l : List α} {x : α}
    (hx : x ∈ l) (hpx : p x = false) : x ∈ l.dropWhile p := by
  induction l with
  | nil => cases hx
  | cons a t ih =>
    by_cases hq : p a
    · rw [List.dropWhile_cons_of_pos hq]
      rcases List.mem_cons.mp hx with rfl | h
      · rw [hq] at hpx; cases hpx
      · exact ih h
    · rw [List.dropWhile_cons_of_neg hq]
      exact hx

theorem rest_cases {l : List (Entry V)} (K : Nat)
    (hs : l.Pairwise (fun p q => p.1 < q.1)) :
    (l.dropWhile (fun p => decide (p.1 < K)) = [] ∧
      l.find? (fun p => p.1 == K) = none) ∨
    (∃ p tl, l.dropWhile (fun p => decide (p.1 < K)) = p :: tl ∧ K ≤ p.1 ∧
      (p.1 = K → l.find? (fun p => p.1 == K) = some p) ∧
      (p.1 ≠ K → l.find? (fun p => p.1 == K) = none)) := by
  induction l with
  | nil => left; simp
  | cons x t ih =>
    rcases List.pairwise_cons.mp hs with ⟨hx, ht⟩
    by_cases h : x.1 < K
    · rw [List.dropWhile_cons_of_pos (by simpa using h),
        List.find?_cons_of_neg _ (by simp only [beq_iff_eq]; omega)]
      exact ih ht
    · rw [List.dropWhile_cons_of_neg (by simpa using h)]
      right
      refine ⟨x, t, rfl, by omega, ?_, ?_⟩
      · intro he
        rw [List.find?_cons_of_pos _ (by simp [he])]
      · intro hne
        rw [List.find?_cons_of_neg _ (by simp [hne])]
        rw [List.find?_eq_none]
        intro y hy
        have hxy := hx y hy
        simp only [beq_iff_eq]
        omega

end SplitOrdered

namespace SplitOrdered

theorem find?_eraseP_ne {l : List (Entry V)} {K K2 : Nat} (hne : K2 ≠ K) :
    (l.eraseP (fun q => q.1 == K)).find? (fun p => p.1 == K2) =
      l.find? (fun p => p.1 == K2) := by
  induction l with
  | nil => rfl
  | cons x t ih =>
    by_cases h : x.1 = K
    · rw [List.eraseP_cons_of_pos (by simp [h]),
        List.find?_cons_of_neg _ (by simp [h]; omega)]
    · rw [List.eraseP_cons_of_neg (by simp [h])]
      by_cases h2 : x.1 = K2
      · rw [List.find?_cons_of_pos _ (by simp [h2]),
          List.find?_cons_of_pos _ (by simp [h2])]
      · rw [List.find?_cons_of_neg _ (by simp [h2]),
          List.find?_cons_of_neg _ (by simp [h2]), ih]

theorem find?_eraseP_self {l : List (Entry V)} {K : Nat}
    (hs : l.Pairwise (fun p q => p.1 < q.1)) :
    (l.eraseP (fun q => q.1 == K)).find? (fun p => p.1 == K) = none := by
  induction l with
  | nil => rfl
  | cons x t ih =>
    rcases List.pairwise_cons.mp hs with ⟨hx, ht⟩
    by_cases h : x.1 = K
    · rw [List.eraseP_cons_of_pos (by simp [h])]
      rw [List.find?_eq_none]
      intro y hy
      have hxy := hx y hy
      simp only [beq_iff_eq]
      omega
    · rw [List.eraseP_cons_of_neg (by simp [h]),
        List.find?_cons_of_neg _ (by simp [h]), ih ht]

theorem liveCount_eraseP {l : List (Entry V)} {K : Nat} {pv : Entry V} {v : V}
    (hf : l.find? (fun p => p.1 == K) = some pv) (hv : pv.2 = some v) :
    liveCount l = liveCount (l.eraseP (fun q => q.1 == K)) + 1 := by
  induction l with
  | nil => cases hf
  | cons x t ih =>
    by_cases h : x.1 = K
    · rw [List.find?_cons_of_pos _ (by simp [h])] at hf
      injection hf with hf
      subst hf
      rw [List.eraseP_cons_of_pos (by simp [h])]
      unfold liveCount
      rw [List.filter_cons, hv]
      simp
    · rw [List.find?_cons_of_neg _ (by simp [h])] at hf
      rw [List.eraseP_cons_of_neg (by simp [h])]
      unfold liveCount at ih ⊢
      rw [List.filter_cons, List.filter_cons]
      by_cases hx : x.2.isSome <;> simp [hx, ih hf]

/-! ### Bucket initialization only adds sentinels -/

theorem sentinelExt_refl (m : SplitOrderedList V) : SentinelExt m m :=
  ⟨rfl, rfl, rfl, fun _ _ => rfl, id⟩

theorem sentinelExt_trans {m1 m2 m3 : SplitOrderedList V}
    (h1 : SentinelExt m1 m2) (h2 : SentinelExt m2 m3) : SentinelExt m1 m3 := by
  obtain ⟨a1, b1, c1, d1, e1⟩ := h1
  obtain ⟨a2, b2, c2, d2, e2⟩ := h2
  exact ⟨a2.trans a1, b2.trans b1, c2.trans c1,
    fun K hK => (d2 K hK).trans (d1 K hK), fun h => e2 (e1 h)⟩

theorem sentinel_insert_ext {m : SplitOrderedList V} {b : Nat} {bs : List Nat}
    (hb : b < 2 ^ 63) (habs : ∀ p ∈ m.list, p.1 ≠ sentKey b) :
    SentinelExt m
      { m with list := insertSorted m.list (sentKey b) none, buckets := bs } := by
  refine ⟨rfl, rfl, ?_, ?_, ?_⟩
  · exact filter_insertSorted_none
  · intro K hK
    apply listPayload_insertSorted_ne
    have := sentKey_even hb
    omega
  · intro hok
    constructor
    · exact insertSorted_pairwise hok.sorted habs
    · intro p hp
      rcases mem_insertSorted p hp with rfl | hp2
      · have := sentKey_even hb
        simp only [Option.isSome_none, Bool.false_eq_true, false_iff]
        omega
      · exact hok.parity p hp2

theorem make_sentinel_ext {m : SplitOrderedList V} {parent child : Nat}
    (hok : ListOK m.list) (hc : child < 2 ^ 63)
    (hpc : sentKey parent ≤ sentKey child) :
    SentinelExt m (make_sentinel m parent child) := by
  unfold make_sentinel
  by_cases h : (cursorAt m.list (sentKey parent)).any (fun p => p.1 == sentKey child)
  · rw [if_pos h]; exact sentinelExt_refl m
  · rw [if_neg h]
    apply sentinel_insert_ext hc
    intro p hp hpk
    apply h
    rw [List.any_eq_true]
    refine ⟨p, ?_, by simp [hpk]⟩
    apply mem_dropWhile_of_not hp
    simp only [decide_eq_false_iff_not]
    omega

theorem bootstrapZero_ext {m : SplitOrderedList V} : SentinelExt m (bootstrapZero m) := by
  unfold bootstrapZero
  by_cases h : m.list.any (fun p => p.1 == sentKey 0)
  · rw [if_pos h]; exact sentinelExt_refl m
  · rw [if_neg h]
    apply sentinel_insert_ext (by norm_num : (0 : Nat) < 2 ^ 63)
    intro p hp hpk
    exact h (List.any_eq_true.mpr ⟨p, hp, by simp [hpk]⟩)

theorem initBucketGo_ext : ∀ (fuel : Nat), ∀ (b : Nat) (m : SplitOrderedList V) (j : Nat),
    b < fuel → m.size = 2 ^ j → b < m.size → b < 2 ^ 63 → ListOK m.list →
    SentinelExt m (initBucketGo fuel m b) := by
  intro fuel
  induction fuel with
  | zero => intro b m j hf _ _ _ _; omega
  | succ fuel ih =>
    intro b m j hf hsz hbs hb63 hok
    simp only [initBucketGo]
    have hext1 : SentinelExt m (if b = 0 ∧ ¬ 0 ∈ m.buckets then bootstrapZero m else m) := by
      split
      · exact bootstrapZero_ext
      · exact sentinelExt_refl m
    generalize hm1 : (if b = 0 ∧ ¬ 0 ∈ m.buckets then bootstrapZero m else m) = m1 at hext1 ⊢
    have hsz1 : m1.size = 2 ^ j := hext1.1.trans hsz
    have hok1 : ListOK m1.list := hext1.2.2.2.2 hok
    by_cases hb0 : b = 0
    · subst hb0
      rw [get_parent_zero]
      have hm2 : SentinelExt m1 (if 0 ∈ m1.buckets then m1
          else if (0 : Nat) < 0 then initBucketGo fuel m1 0 else m1) := by
        by_cases hmem : 0 ∈ m1.buckets
        · rw [if_pos hmem]
          exact sentinelExt_refl m1
        · rw [if_neg hmem, if_neg (by omega : ¬ (0 : Nat) < 0)]
          exact sentinelExt_refl m1
      generalize hg : (if 0 ∈ m1.buckets then m1
          else if (0 : Nat) < 0 then initBucketGo fuel m1 0 else m1) = m2 at hm2 ⊢
      have hok2 : ListOK m2.list := hm2.2.2.2.2 hok1
      exact sentinelExt_trans hext1 (sentinelExt_trans hm2
        (make_sentinel_ext hok2 hb63 (Nat.le_refl _)))
    · obtain ⟨t, ht1, ht2, htp, htlt⟩ :=
        get_parent_char hsz1 (by omega : 0 < b) (by omega : b < m1.size)
      have hple : sentKey (get_parent m1.size b) ≤ sentKey b := by
        rw [htp]
        exact Nat.le_of_lt (sentKey_lt_of_clear_top ht1 ht2 hb63)
      have hm2 : SentinelExt m1 (if get_parent m1.size b ∈ m1.buckets then m1
          else if get_parent m1.size b < b
            then initBucketGo fuel m1 (get_parent m1.size b) else m1) := by
        by_cases hmem : get_parent m1.size b ∈ m1.buckets
        · rw [if_pos hmem]
          exact sentinelExt_refl m1
        · rw [if_neg hmem, if_pos htlt]
          exact ih (get_parent m1.size b) m1 j (by omega) hsz1 (by omega) (by omega) hok1
      generalize hg : (if get_parent m1.size b ∈ m1.buckets then m1
          else if get_parent m1.size b < b
            then initBucketGo fuel m1 (get_parent m1.size b) else m1) = m2 at hm2 ⊢
      have hok2 : ListOK m2.list := hm2.2.2.2.2 hok1
      exact sentinelExt_trans hext1 (sentinelExt_trans hm2
        (make_sentinel_ext hok2 hb63 hple))

theorem initialize_bucket_ext (b : Nat) (m : SplitOrderedList V) (j : Nat)
    (hsz : m.size = 2 ^ j) (hbs : b < m.size) (hb63 : b < 2 ^ 63)
    (hok : ListOK m.list) : SentinelExt m (initialize_bucket m b) :=
  initBucketGo_ext (b + 1) b m j (by omega) hsz hbs hb63 hok

end SplitOrdered

namespace SplitOrdered

/-! ### Specification of find -/

theorem inv_sentinelExt {V : Type} {m m1 : SplitOrderedList V} {f : Nat → Option V}
    (hinv : Inv m f) (hext : SentinelExt m m1) : Inv m1 f := by
  obtain ⟨hsz, hcnt, hfil, hpay, hok⟩ := hext
  refine ⟨hok hinv.ok, ?_, ?_, ?_, ?_⟩
  · obtain ⟨j, hj⟩ := hinv.pow
    exact ⟨j, hsz.trans hj⟩
  · rw [hsz]; exact hinv.two_le
  · intro k hk
    rw [hpay (ordKey k) (ordKey_odd hk)]
    exact hinv.abs k hk
  · rw [hcnt, hinv.cnt]
    unfold liveCount
    rw [hfil]

theorem find_spec {V : Type} {m : SplitOrderedList V} {f : Nat → Option V} (k : Nat)
    (hinv : Inv m f) (hk : k < 2 ^ 63) :
    SentinelExt m (find m k).1 ∧
    (find m k).2.2 =
      (find m k).1.list.dropWhile (fun p => decide (p.1 < ordKey k)) ∧
    ((find m k).2.1 = true →
      ∃ v tl, (find m k).2.2 = (ordKey k, some v) :: tl ∧
        (find m k).1.list.find? (fun p => p.1 == ordKey k) = some (ordKey k, some v) ∧
        f k = some v) ∧
    ((find m k).2.1 = false →
      (find m k).1.list.find? (fun p => p.1 == ordKey k) = none ∧ f k = none) := by
  obtain ⟨j, hj⟩ := hinv.pow
  have hpos : 0 < m.size := by have := hinv.two_le; omega
  have hb63 : k % m.size < 2 ^ 63 := lt_of_le_of_lt (Nat.mod_le k m.size) hk
  have hbs : k % m.size < m.size := Nat.mod_lt k hpos
  have hsb : sentKey (k % m.size) < ordKey k := by
    rw [hj]
    exact sentKey_lt_ordKey hk j
  have h1 : (find m k).1 =
      (if (k % m.size) ∈ m.buckets then m else initialize_bucket m (k % m.size)) := rfl
  have h2 : (find m k).2.2 =
      (cursorAt (find m k).1.list (sentKey (k % m.size))).dropWhile
        (fun p => decide (p.1 < ordKey k)) := rfl
  have h3 : (find m k).2.1 = (match (find m k).2.2 with
      | [] => false
      | p :: _ => p.1 == ordKey k) := rfl
  have hext : SentinelExt m (find m k).1 := by
    rw [h1]
    split
    · exact sentinelExt_refl m
    · exact initialize_bucket_ext (k % m.size) m j hj hbs hb63 hinv.ok
  have hok1 : ListOK (find m k).1.list := hext.2.2.2.2 hinv.ok
  have habs2 : listPayload (find m k).1.list (ordKey k) = f k :=
    (hext.2.2.2.1 (ordKey k) (ordKey_odd hk)).trans (hinv.abs k hk)
  have hrest : (find m k).2.2 =
      (find m k).1.list.dropWhile (fun p => decide (p.1 < ordKey k)) := by
    rw [h2]
    unfold cursorAt
    apply dropWhile_dropWhile
    intro x hx
    simp only [decide_eq_true_eq] at hx ⊢
    omega
  refine ⟨hext, hrest, ?_, ?_⟩
  · intro hfound
    rcases rest_cases (ordKey k) hok1.sorted with ⟨hnil, hfind⟩ | ⟨p, tl, hcons, hKp, hyes, hno⟩
    · rw [← hrest] at hnil
      rw [h3, hnil] at hfound
      cases hfound
    · rw [← hrest] at hcons
      rw [h3, hcons] at hfound
      simp only [beq_iff_eq] at hfound
      have hfs := hyes hfound
      have hmem : p ∈ (find m k).1.list := List.mem_of_find?_eq_some hfs
      have hodd : p.1 % 2 = 1 := by rw [hfound]; exact ordKey_odd hk
      have hsome : p.2.isSome = true := (hok1.parity p hmem).mpr hodd
      obtain ⟨v, hv⟩ := Option.isSome_iff_exists.mp hsome
      have hpval : p = (ordKey k, some v) := by
        cases p with
        | mk a b =>
          simp only [Prod.mk.injEq]
          exact ⟨hfound, hv⟩
      have hpay : f k = some v := by
        rw [← habs2]
        simp only [listPayload, hfs]
        exact hv
      exact ⟨v, tl, by rw [hcons, hpval], by rw [hfs, hpval], hpay⟩
  · intro hfound
    rcases rest_cases (ordKey k) hok1.sorted with ⟨hnil, hfind⟩ | ⟨p, tl, hcons, hKp, hyes, hno⟩
    · refine ⟨hfind, ?_⟩
      rw [← habs2]
      simp only [listPayload, hfind]
    · rw [← hrest] at hcons
      rw [h3, hcons] at hfound
      simp only [beq_eq_false_iff_ne] at hfound
      have hfn := hno hfound
      refine ⟨hfn, ?_⟩
      rw [← habs2]
      simp only [listPayload, hfn]

end SplitOrdered

namespace SplitOrdered

/-! ### Bucket initialization never touches the counters (for any state) -/

theorem make_sentinel_counters (m : SplitOrderedList V) (parent child : Nat) :
    (make_sentinel m parent child).size = m.size ∧
    (make_sentinel m parent child).count = m.count := by
  simp only [make_sentinel]
  split <;> exact ⟨rfl, rfl⟩

theorem bootstrapZero_counters (m : SplitOrderedList V) :
    (bootstrapZero m).size = m.size ∧ (bootstrapZero m).count = m.count := by
  unfold bootstrapZero
  split <;> exact ⟨rfl, rfl⟩

theorem initBucketGo_counters : ∀ (fuel : Nat) (b : Nat) (m : SplitOrderedList V),
    (initBucketGo fuel m b).size = m.size ∧
    (initBucketGo fuel m b).count = m.count := by
  intro fuel
  induction fuel with
  | zero => intro b m; exact ⟨rfl, rfl⟩
  | succ fuel ih =>
    intro b m
    simp only [initBucketGo]
    generalize hm1 : (if b = 0 ∧ ¬ 0 ∈ m.buckets then bootstrapZero m else m) = m1
    have hc1 : m1.size = m.size ∧ m1.count = m.count := by
      rw [← hm1]
      split
      · exact bootstrapZero_counters m
      · exact ⟨rfl, rfl⟩
    have hc2 : ∀ m2 : SplitOrderedList V,
        (if get_parent m1.size b ∈ m1.buckets then m1
          else if get_parent m1.size b < b
            then initBucketGo fuel m1 (get_parent m1.size b) else m1) = m2 →
        m2.size = m1.size ∧ m2.count = m1.count := by
      intro m2 hm2
      rw [← hm2]
      split
      · exact ⟨rfl, rfl⟩
      · split
        · exact ih _ m1
        · exact ⟨rfl, rfl⟩
    obtain ⟨ha, hb2⟩ := hc2 _ rfl
    obtain ⟨hmsa, hmsb⟩ := make_sentinel_counters _ (get_parent m1.size b) b
    exact ⟨hmsa.trans (ha.trans hc1.1), hmsb.trans (hb2.trans hc1.2)⟩

theorem initialize_bucket_counters (b : Nat) (m : SplitOrderedList V) :
    (initialize_bucket m b).size = m.size ∧
    (initialize_bucket m b).count = m.count :=
  initBucketGo_counters (b + 1) b m

theorem find_counters (m : SplitOrderedList V) (k : Nat) :
    (find m k).1.size = m.size ∧ (find m k).1.count = m.count := by
  have h1 : (find m k).1 =
      (if (k % m.size) ∈ m.buckets then m else initialize_bucket m (k % m.size)) := rfl
  rw [h1]
  split
  · exact ⟨rfl, rfl⟩
  · exact initialize_bucket_counters (k % m.size) m

/-! ### Operation specifications -/

theorem lookup_spec {V : Type} {m : SplitOrderedList V} {f : Nat → Option V} (k : Nat)
    (hinv : Inv m f) (hk : k < 2 ^ 63) :
    (m.lookup k).2 = f k ∧ SentinelExt m (m.lookup k).1 ∧ Inv (m.lookup k).1 f := by
  obtain ⟨hext, hrest, hyes, hno⟩ := find_spec k hinv hk
  have h1 : (m.lookup k).1 = (find m k).1 := by
    unfold SplitOrderedList.lookup
    rcases hb : (find m k).2.1 <;> rcases hr : (find m k).2.2 <;> simp [hb, hr]
  refine ⟨?_, by rw [h1]; exact hext, by rw [h1]; exact inv_sentinelExt hinv hext⟩
  cases hb : (find m k).2.1 with
  | false =>
    obtain ⟨hfn, hfk⟩ := hno hb
    rw [hfk]
    unfold SplitOrderedList.lookup
    rcases hr : (find m k).2.2 <;> simp [hb, hr]
  | true =>
    obtain ⟨v, tl, hcons, hfs, hfk⟩ := hyes hb
    rw [hfk]
    unfold SplitOrderedList.lookup
    simp [hb, hcons]

end SplitOrdered

namespace SplitOrdered

theorem insert_spec {V : Type} {m : SplitOrderedList V} {f : Nat → Option V}
    (k : Nat) (v : V) (hinv : Inv m f) (hk : k < 2 ^ 63) :
    (f k = none →
      (m.insert k v).2 = Except.ok () ∧
      Inv (m.insert k v).1 (fun q => if q = k then some v else f q) ∧
      (m.insert k v).1.count = m.count + 1 ∧
      (m.insert k v).1.size =
        (if m.count / m.size > LOAD_FACTOR then m.size * 2 else m.size)) ∧
    (∀ w, f k = some w →
      (m.insert k v).2 = Except.error v ∧ Inv (m.insert k v).1 f ∧
      (m.insert k v).1.count = m.count ∧ (m.insert k v).1.size = m.size) := by
  obtain ⟨hext, hrest, hyes, hno⟩ := find_spec k hinv hk
  have hsz : (find m k).1.size = m.size := hext.1
  have hcnt : (find m k).1.count = m.count := hext.2.1
  have hfil : (find m k).1.list.filter (fun p => p.2.isSome) =
      m.list.filter (fun p => p.2.isSome) := hext.2.2.1
  have hokimp := hext.2.2.2.2
  constructor
  · intro hfk
    cases hb : (find m k).2.1 with
    | true =>
      obtain ⟨w, tl, _, _, hfkw⟩ := hyes hb
      rw [hfk] at hfkw
      cases hfkw
    | false =>
      obtain ⟨hfn, _⟩ := hno hb
      have he2 : (m.insert k v).2 = Except.ok () := by
        unfold SplitOrderedList.insert
        simp [hb]
      have hel : (m.insert k v).1.list =
          insertSorted (find m k).1.list (ordKey k) (some v) := by
        unfold SplitOrderedList.insert
        simp only [hb, Bool.false_eq_true, if_false]
        split <;> rfl
      have hec : (m.insert k v).1.count = (find m k).1.count + 1 := by
        unfold SplitOrderedList.insert
        simp only [hb, Bool.false_eq_true, if_false]
        split <;> rfl
      have hes : (m.insert k v).1.size =
          (if LOAD_FACTOR < (find m k).1.count / (find m k).1.size
            then (find m k).1.size * 2 else (find m k).1.size) := by
        unfold SplitOrderedList.insert
        simp only [hb, Bool.false_eq_true, if_false]
        split <;> rfl
      have habs : ∀ p ∈ (find m k).1.list, p.1 ≠ ordKey k := by
        intro p hp hcon
        have hall := List.find?_eq_none.mp hfn p hp
        simp only [beq_iff_eq] at hall
        exact hall hcon
      have hok1 : ListOK (find m k).1.list := hokimp hinv.ok
      have hlc : liveCount (find m k).1.list = liveCount m.list := by
        unfold liveCount
        rw [hfil]
      refine ⟨he2, ?_, by rw [hec, hcnt], by rw [hes, hsz, hcnt]⟩
      refine ⟨⟨?_, ?_⟩, ?_, ?_, ?_, ?_⟩
      · rw [hel]
        exact insertSorted_pairwise hok1.sorted habs
      · rw [hel]
        intro p hp
        rcases mem_insertSorted p hp with rfl | hp2
        · have := ordKey_odd hk
          simp only [Option.isSome_some, true_iff]
          exact this
        · exact hok1.parity p hp2
      · obtain ⟨j, hj⟩ := hinv.pow
        rw [hes, hsz]
        split
        · exact ⟨j + 1, by rw [hj, Nat.pow_succ]⟩
        · exact ⟨j, hj⟩
      · rw [hes, hsz]
        have := hinv.two_le
        split <;> omega
      · intro k2 hk2
        rw [hel]
        by_cases hkk : k2 = k
        · subst hkk
          rw [listPayload_insertSorted_self]
          simp
        · have hne : ordKey k ≠ ordKey k2 := fun he =>
            hkk (ordKey_inj hk2 hk he.symm)
          rw [listPayload_insertSorted_ne hne]
          rw [hext.2.2.2.1 (ordKey k2) (ordKey_odd hk2), hinv.abs k2 hk2]
          simp [hkk]
      · rw [hec, hel, liveCount_insertSorted_some, hlc, ← hinv.cnt, hcnt]
  · intro w hfkw
    cases hb : (find m k).2.1 with
    | false =>
      obtain ⟨_, hfk0⟩ := hno hb
      rw [hfkw] at hfk0
      cases hfk0
    | true =>
      have he2 : (m.insert k v).2 = Except.error v := by
        unfold SplitOrderedList.insert
        simp [hb]
      have he1 : (m.insert k v).1 = (find m k).1 := by
        unfold SplitOrderedList.insert
        simp [hb]
      refine ⟨he2, ?_, ?_, ?_⟩
      · rw [he1]
        exact inv_sentinelExt hinv hext
      · rw [he1, hcnt]
      · rw [he1, hsz]

theorem delete_spec {V : Type} {m : SplitOrderedList V} {f : Nat → Option V}
    (k : Nat) (hinv : Inv m f) (hk : k < 2 ^ 63) :
    (f k = none →
      (m.delete k).2 = Except.error () ∧ Inv (m.delete k).1 f ∧
      (m.delete k).1.size = m.size ∧ (m.delete k).1.count = m.count) ∧
    (∀ w, f k = some w →
      (m.delete k).2 = Except.ok w ∧
      Inv (m.delete k).1 (fun q => if q = k then none else f q) ∧
      (m.delete k).1.size = m.size ∧ m.count = (m.delete k).1.count + 1) := by
  obtain ⟨hext, hrest, hyes, hno⟩ := find_spec k hinv hk
  have hsz : (find m k).1.size = m.size := hext.1
  have hcnt : (find m k).1.count = m.count := hext.2.1
  have hfil : (find m k).1.list.filter (fun p => p.2.isSome) =
      m.list.filter (fun p => p.2.isSome) := hext.2.2.1
  have hokimp := hext.2.2.2.2
  have hok1 : ListOK (find m k).1.list := hokimp hinv.ok
  have hlc : liveCount (find m k).1.list = liveCount m.list := by
    unfold liveCount
    rw [hfil]
  constructor
  · intro hfk
    cases hb : (find m k).2.1 with
    | true =>
      obtain ⟨w, tl, _, _, hfkw⟩ := hyes hb
      rw [hfk] at hfkw
      cases hfkw
    | false =>
      have he : m.delete k = ((find m k).1, Except.error ()) := by
        unfold SplitOrderedList.delete
        rcases hr : (find m k).2.2 <;> simp [hb, hr]
      rw [he]
      exact ⟨rfl, inv_sentinelExt hinv hext, hsz, hcnt⟩
  · intro w hfkw
    cases hb : (find m k).2.1 with
    | false =>
      obtain ⟨_, hfk0⟩ := hno hb
      rw [hfkw] at hfk0
      cases hfk0
    | true =>
      obtain ⟨v, tl, hcons, hfs, hfk⟩ := hyes hb
      rw [hfkw] at hfk
      injection hfk with hvw
      subst hvw
      have he : m.delete k =
          ({ (find m k).1 with
              list := (find m k).1.list.eraseP (fun q => q.1 == ordKey k),
              count := (find m k).1.count - 1 }, Except.ok w) := by
        unfold SplitOrderedList.delete
        simp [hb, hcons]
      have hcountpos : liveCount (find m k).1.list =
          liveCount ((find m k).1.list.eraseP (fun q => q.1 == ordKey k)) + 1 :=
        liveCount_eraseP hfs rfl
      rw [he]
      refine ⟨rfl, ⟨⟨?_, ?_⟩, ?_, ?_, ?_, ?_⟩, ?_, ?_⟩
      · exact List.Pairwise.sublist (List.eraseP_sublist _) hok1.sorted
      · intro p hp
        exact hok1.parity p ((List.eraseP_sublist _).subset hp)
      · obtain ⟨j, hj⟩ := hinv.pow
        exact ⟨j, hsz.trans hj⟩
      · show 2 ≤ (find m k).1.size
        rw [hsz]
        exact hinv.two_le
      · intro k2 hk2
        show listPayload ((find m k).1.list.eraseP (fun q => q.1 == ordKey k))
            (ordKey k2) = _
        by_cases hkk : k2 = k
        · have hstep : listPayload
              ((find m k).1.list.eraseP (fun q => q.1 == ordKey k)) (ordKey k) =
              none := by
            unfold listPayload
            rw [find?_eraseP_self hok1.sorted]
          rw [hkk, hstep]
          simp
        · have hne : ordKey k2 ≠ ordKey k := fun he =>
            hkk (ordKey_inj hk2 hk he)
          have hstep : listPayload
              ((find m k).1.list.eraseP (fun q => q.1 == ordKey k)) (ordKey k2) =
              listPayload (find m k).1.list (ordKey k2) := by
            unfold listPayload
            rw [find?_eraseP_ne hne]
          rw [hstep, hext.2.2.2.1 (ordKey k2) (ordKey_odd hk2), hinv.abs k2 hk2]
          simp [hkk]
      · show (find m k).1.count - 1 =
          liveCount ((find m k).1.list.eraseP (fun q => q.1 == ordKey k))
        rw [hcnt, hinv.cnt]
        omega
      · exact hsz
      · show m.count = (find m k).1.count - 1 + 1
        rw [hcnt, hinv.cnt]
        omega
end SplitOrdered

namespace SplitOrdered

/-! ### The invariant holds along every run -/

theorem new_inv {V : Type} : Inv (SplitOrderedList.new : SplitOrderedList V) (fun _ => none) := by
  refine ⟨⟨List.Pairwise.nil, ?_⟩, ⟨1, rfl⟩, Nat.le_refl 2, ?_, rfl⟩
  · intro p hp
    cases hp
  · intro k hk
    rfl

theorem stepOp_inv {V : Type} {m : SplitOrderedList V} {f : Nat → Option V}
    (hinv : Inv m f) (op : Op V) (hop : op.key < 2 ^ 63) :
    Inv (stepOp m op) (specF f op) ∧ m.size ≤ (stepOp m op).size := by
  cases op with
  | look k =>
    obtain ⟨_, hext, hinv2⟩ := lookup_spec k hinv hop
    refine ⟨hinv2, ?_⟩
    show m.size ≤ (m.lookup k).1.size
    rw [hext.1]
  | ins k v =>
    obtain ⟨hnone, hsome⟩ := insert_spec k v hinv hop
    cases hfk : f k with
    | none =>
      obtain ⟨_, hinv2, _, hsz⟩ := hnone hfk
      refine ⟨?_, ?_⟩
      · show Inv (m.insert k v).1 _
        simp only [specF, hfk]
        exact hinv2
      · show m.size ≤ (m.insert k v).1.size
        rw [hsz]
        split <;> omega
    | some w =>
      obtain ⟨_, hinv2, _, hsz⟩ := hsome w hfk
      refine ⟨?_, ?_⟩
      · show Inv (m.insert k v).1 _
        simp only [specF, hfk]
        exact hinv2
      · show m.size ≤ (m.insert k v).1.size
        rw [hsz]
  | del k =>
    obtain ⟨hnone, hsome⟩ := delete_spec k hinv hop
    cases hfk : f k with
    | none =>
      obtain ⟨_, hinv2, hsz, _⟩ := hnone hfk
      have hfe : (fun q => if q = k then none else f q) = f := by
        funext q
        by_cases h : q = k
        · rw [if_pos h, h, hfk]
        · rw [if_neg h]
      refine ⟨?_, ?_⟩
      · show Inv (m.delete k).1 _
        show Inv (m.delete k).1 (fun q => if q = k then none else f q)
        rw [hfe]
        exact hinv2
      · show m.size ≤ (m.delete k).1.size
        rw [hsz]
    | some w =>
      obtain ⟨_, hinv2, hsz, _⟩ := hsome w hfk
      refine ⟨hinv2, ?_⟩
      show m.size ≤ (m.delete k).1.size
      rw [hsz]

theorem runOps_inv {V : Type} : ∀ (ops : List (Op V)) (m : SplitOrderedList V)
    (f : Nat → Option V), Inv m f → (∀ op ∈ ops, op.key < 2 ^ 63) →
    Inv (runOps m ops) (ops.foldl specF f) ∧ m.size ≤ (runOps m ops).size := by
  intro ops
  induction ops with
  | nil =>
    intro m f hinv _
    exact ⟨hinv, Nat.le_refl _⟩
  | cons op rest ih =>
    intro m f hinv hval
    have hop : op.key < 2 ^ 63 := hval op (List.mem_cons_self op rest)
    obtain ⟨hinv1, hsz1⟩ := stepOp_inv hinv op hop
    have hval2 : ∀ o ∈ rest, Op.key o < 2 ^ 63 :=
      fun o ho => hval o (List.mem_cons_of_mem op ho)
    obtain ⟨hinv2, hsz2⟩ := ih (stepOp m op) (specF f op) hinv1 hval2
    exact ⟨hinv2, Nat.le_trans hsz1 hsz2⟩

theorem run_inv {V : Type} (ops : List (Op V)) (hval : ∀ op ∈ ops, op.key < 2 ^ 63) :
    Inv (runOps SplitOrderedList.new ops) (specMap ops) :=
  (runOps_inv ops SplitOrderedList.new (fun _ => none) new_inv hval).1

end SplitOrdered

namespace SplitOrdered

/-! ### Claims -/

/-- C1: Sequential map correctness.  After running any sequence of valid
operations from the empty map, lookup of a valid key returns exactly what
the abstract functional map for that sequence holds: absent for a key
never (successfully) inserted or whose latest successful operation was a
delete, and the value of the latest successful insert otherwise. -/
theorem claim1 {V : Type} (ops : List (Op V)) (k : Nat)
    (hval : ∀ op ∈ ops, op.key < 2 ^ 63) (hk : k < 2 ^ 63) :
    ((runOps SplitOrderedList.new ops).lookup k).2 = specMap ops k :=
  (lookup_spec k (run_inv ops hval) hk).1

theorem claim1_witness :
    (∀ op ∈ ([Op.ins 37 37, Op.del 37] : List (Op Nat)), op.key < 2 ^ 63) ∧
    ((runOps (SplitOrderedList.new (V := Nat)) [Op.ins 37 37, Op.del 37]).lookup 37).2 =
      specMap [Op.ins 37 37, Op.del 37] 37 :=
  ⟨by decide, claim1 [Op.ins 37 37, Op.del 37] 37 (by decide) (by decide)⟩

/-- C2: Duplicate insert.  If an insert of `v1` at a valid key `k`
succeeded, a second insert of `v2` at `k` with no intervening delete
fails, hands `v2` back unconsumed (as the payload of the error), and the
map still reports `v1` for `k`. -/
theorem claim2 {V : Type} (ops : List (Op V)) (k : Nat) (v1 v2 : V)
    (hval : ∀ op ∈ ops, op.key < 2 ^ 63) (hk : k < 2 ^ 63)
    (hsucc : ((runOps SplitOrderedList.new ops).insert k v1).2 = Except.ok ()) :
    (((runOps SplitOrderedList.new ops).insert k v1).1.insert k v2).2 =
      Except.error v2 ∧
    ((((runOps SplitOrderedList.new ops).insert k v1).1.insert k v2).1.lookup k).2 =
      some v1 := by
  have hinv := run_inv ops hval
  obtain ⟨hnone, hsome⟩ := insert_spec k v1 hinv hk
  have hfk : specMap ops k = none := by
    cases hfk0 : specMap ops k with
    | none => rfl
    | some w =>
      obtain ⟨herr, _, _, _⟩ := hsome w hfk0
      rw [hsucc] at herr
      cases herr
  obtain ⟨_, hinv1, _, _⟩ := hnone hfk
  obtain ⟨hnone2, hsome2⟩ := insert_spec k v2 hinv1 hk
  have hfk1 : (fun q => if q = k then some v1 else specMap ops q) k = some v1 := by simp
  obtain ⟨herr2, hinv2, _, _⟩ := hsome2 v1 hfk1
  refine ⟨herr2, ?_⟩
  obtain ⟨hl, _, _⟩ := lookup_spec k hinv2 hk
  rw [hl]
  simp

theorem claim2_witness :
    ((SplitOrderedList.new (V := Nat)).insert 37 1).2 = Except.ok () ∧
    ((((SplitOrderedList.new (V := Nat)).insert 37 1).1.insert 37 2).2 = Except.error 2 ∧
      (((((SplitOrderedList.new (V := Nat)).insert 37 1).1.insert 37 2).1).lookup 37).2 =
        some 1) :=
  ⟨by decide, claim2 [] 37 1 2 (by decide) (by decide) (by decide)⟩

/-- C3: Delete semantics.  Deleting a valid key that is absent (never
inserted, or already deleted) fails with the distinct not-found outcome;
after a successful insert of `v` at `k`, delete returns `v`, after which
lookup reports absent and a repeated delete fails — so deletes succeed at
most once per insertion. -/
theorem claim3 {V : Type} (ops : List (Op V)) (k : Nat) (v : V)
    (hval : ∀ op ∈ ops, op.key < 2 ^ 63) (hk : k < 2 ^ 63) :
    (specMap ops k = none →
      ((runOps SplitOrderedList.new ops).delete k).2 = Except.error ()) ∧
    (((runOps SplitOrderedList.new ops).insert k v).2 = Except.ok () →
      (((runOps SplitOrderedList.new ops).insert k v).1.delete k).2 = Except.ok v ∧
      ((((runOps SplitOrderedList.new ops).insert k v).1.delete k).1.lookup k).2 =
        none ∧
      ((((runOps SplitOrderedList.new ops).insert k v).1.delete k).1.delete k).2 =
        Except.error ()) := by
  have hinv := run_inv ops hval
  constructor
  · intro hfk
    obtain ⟨hnone, _⟩ := delete_spec k hinv hk
    exact (hnone hfk).1
  · intro hsucc
    obtain ⟨hnoneI, hsomeI⟩ := insert_spec k v hinv hk
    have hfk : specMap ops k = none := by
      cases hfk0 : specMap ops k with
      | none => rfl
      | some w =>
        obtain ⟨herr, _, _, _⟩ := hsomeI w hfk0
        rw [hsucc] at herr
        cases herr
    obtain ⟨_, hinv1, _, _⟩ := hnoneI hfk
    obtain ⟨hnoneD, hsomeD⟩ := delete_spec k hinv1 hk
    have hfk1 : (fun q => if q = k then some v else specMap ops q) k = some v := by simp
    obtain ⟨hok, hinv2, _, _⟩ := hsomeD v hfk1
    refine ⟨hok, ?_, ?_⟩
    · obtain ⟨hl, _, _⟩ := lookup_spec k hinv2 hk
      rw [hl]
      simp
    · obtain ⟨hnoneD2, _⟩ := delete_spec k hinv2 hk
      exact (hnoneD2 (by simp)).1

theorem claim3_witness :
    (specMap ([] : List (Op Nat)) 37 = none →
      ((runOps (SplitOrderedList.new (V := Nat)) []).delete 37).2 = Except.error ()) ∧
    (((runOps (SplitOrderedList.new (V := Nat)) []).insert 37 5).2 = Except.ok () →
      (((runOps (SplitOrderedList.new (V := Nat)) []).insert 37 5).1.delete 37).2 =
        Except.ok 5 ∧
      ((((runOps (SplitOrderedList.new (V := Nat)) []).insert 37 5).1.delete
          37).1.lookup 37).2 = none ∧
      ((((runOps (SplitOrderedList.new (V := Nat)) []).insert 37 5).1.delete
          37).1.delete 37).2 = Except.error ()) :=
  claim3 [] 37 5 (by decide) (by decide)

/-- C4 (counterexample): after five successful inserts, a sixth
successful insert raises the count to 6 while the bucket count is still
2, so the new count/size ratio is 3, which exceeds the load factor 2 —
yet the insert leaves `size` at 2 (no doubling is even attempted).  The
source keys the load-factor test to the pre-increment count returned by
`fetch_add`, not to the new count, so the claim's "if and only if the new
count/size ratio exceeds the load factor" is false of the code. -/
theorem claim4_counterexample :
    ((runOps (SplitOrderedList.new (V := Nat))
        [Op.ins 1 1, Op.ins 2 2, Op.ins 3 3, Op.ins 4 4, Op.ins 5 5]).insert 6 6).2 =
      Except.ok () ∧
    (runOps (SplitOrderedList.new (V := Nat))
        [Op.ins 1 1, Op.ins 2 2, Op.ins 3 3, Op.ins 4 4, Op.ins 5 5]).size = 2 ∧
    ((runOps (SplitOrderedList.new (V := Nat))
        [Op.ins 1 1, Op.ins 2 2, Op.ins 3 3, Op.ins 4 4, Op.ins 5 5]).insert 6 6).1.count =
      6 ∧
    ((runOps (SplitOrderedList.new (V := Nat))
        [Op.ins 1 1, Op.ins 2 2, Op.ins 3 3, Op.ins 4 4, Op.ins 5 5]).insert 6 6).1.size =
      2 ∧
    LOAD_FACTOR <
      ((runOps (SplitOrderedList.new (V := Nat))
          [Op.ins 1 1, Op.ins 2 2, Op.ins 3 3, Op.ins 4 4, Op.ins 5 5]).insert 6 6).1.count /
        ((runOps (SplitOrderedList.new (V := Nat))
          [Op.ins 1 1, Op.ins 2 2, Op.ins 3 3, Op.ins 4 4, Op.ins 5 5]).insert 6 6).1.size := by
  decide

/-- C4 (amended): every successful insert increments `count` by one and
then doubles `size` if and only if the pre-increment count (the value
`fetch_add` returns) divided by `size` (integer division) exceeds the
load factor 2; when that condition does not hold, `size` is left
unchanged.  (Sequentially the single compare-and-swap always succeeds.) -/
theorem claim4 {V : Type} (m : SplitOrderedList V) (k : Nat) (v : V)
    (hok : (m.insert k v).2 = Except.ok ()) :
    (m.insert k v).1.count = m.count + 1 ∧
    (m.insert k v).1.size =
      (if m.count / m.size > LOAD_FACTOR then m.size * 2 else m.size) := by
  cases hb : (find m k).2.1 with
  | true =>
    have herr : (m.insert k v).2 = Except.error v := by
      unfold SplitOrderedList.insert
      simp [hb]
    rw [herr] at hok
    cases hok
  | false =>
    obtain ⟨hfs, hfc⟩ := find_counters m k
    have hec : (m.insert k v).1.count = (find m k).1.count + 1 := by
      unfold SplitOrderedList.insert
      simp only [hb, Bool.false_eq_true, if_false]
      split <;> rfl
    have hes : (m.insert k v).1.size =
        (if LOAD_FACTOR < (find m k).1.count / (find m k).1.size
          then (find m k).1.size * 2 else (find m k).1.size) := by
      unfold SplitOrderedList.insert
      simp only [hb, Bool.false_eq_true, if_false]
      split <;> rfl
    rw [hec, hfc, hes, hfc, hfs]
    exact ⟨rfl, rfl⟩

theorem claim4_witness :
    ((SplitOrderedList.new (V := Nat)).insert 1 1).2 = Except.ok () ∧
    (((SplitOrderedList.new (V := Nat)).insert 1 1).1.count =
        (SplitOrderedList.new (V := Nat)).count + 1 ∧
      ((SplitOrderedList.new (V := Nat)).insert 1 1).1.size =
        (if (SplitOrderedList.new (V := Nat)).count / (SplitOrderedList.new (V := Nat)).size >
            LOAD_FACTOR
          then (SplitOrderedList.new (V := Nat)).size * 2
          else (SplitOrderedList.new (V := Nat)).size)) :=
  ⟨by decide, claim4 SplitOrderedList.new 1 1 (by decide)⟩

/-- C5: Counter invariants.  `size` starts at 2, is a power of two in
every state reachable by valid operations, never decreases across any
further sequence of operations, and `count` always equals the number of
live user entries (entries with a payload; sentinels excluded). -/
theorem claim5 {V : Type} (ops : List (Op V)) (hval : ∀ op ∈ ops, op.key < 2 ^ 63) :
    (SplitOrderedList.new (V := V)).size = 2 ∧
    (∃ j, (runOps SplitOrderedList.new ops).size = 2 ^ j) ∧
    2 ≤ (runOps SplitOrderedList.new ops).size ∧
    (runOps SplitOrderedList.new ops).count =
      liveCount (runOps SplitOrderedList.new ops).list ∧
    (∀ more : List (Op V), (∀ op ∈ more, op.key < 2 ^ 63) →
      (runOps SplitOrderedList.new ops).size ≤
        (runOps (runOps SplitOrderedList.new ops) more).size) := by
  have hinv := run_inv ops hval
  refine ⟨rfl, hinv.pow, hinv.two_le, hinv.cnt, ?_⟩
  intro more hvm
  exact (runOps_inv more _ (specMap ops) hinv hvm).2

theorem claim5_witness :
    (∀ op ∈ ([Op.ins 37 37] : List (Op Nat)), op.key < 2 ^ 63) ∧
    ((SplitOrderedList.new (V := Nat)).size = 2 ∧
      (∃ j, (runOps (SplitOrderedList.new (V := Nat)) [Op.ins 37 37]).size = 2 ^ j) ∧
      2 ≤ (runOps (SplitOrderedList.new (V := Nat)) [Op.ins 37 37]).size ∧
      (runOps (SplitOrderedList.new (V := Nat)) [Op.ins 37 37]).count =
        liveCount (runOps (SplitOrderedList.new (V := Nat)) [Op.ins 37 37]).list ∧
      (∀ more : List (Op Nat), (∀ op ∈ more, op.key < 2 ^ 63) →
        (runOps (SplitOrderedList.new (V := Nat)) [Op.ins 37 37]).size ≤
          (runOps (runOps SplitOrderedList.new [Op.ins 37 37]) more).size)) :=
  ⟨by decide, claim5 [Op.ins 37 37] (by decide)⟩

/-- C6: Key encoding and split order.  For every valid user key `k` (top
bit clear) the ordinary key is `reverse_bits(k | 2^63)` and for every
bucket id `b < 2^63` the sentinel key is `reverse_bits(b)`; no ordinary
key equals a sentinel key (ordinary keys are odd, sentinel keys even),
and for every power-of-two size `s` the sentinel key of bucket
`k mod s` is strictly below the ordinary key of `k`. -/
theorem claim6 (k : Nat) (hk : k < 2 ^ 63) :
    ordKey k = reverseBits64 (k ||| HI_MASK) ∧
    (∀ b, b < 2 ^ 63 → sentKey b = reverseBits64 b ∧ ordKey k ≠ sentKey b) ∧
    (∀ s j, s = 2 ^ j → sentKey (k % s) < ordKey k) := by
  refine ⟨rfl, ?_, ?_⟩
  · intro b hb
    refine ⟨rfl, ?_⟩
    intro he
    have h1 := ordKey_odd hk
    have h2 := sentKey_even hb
    rw [he] at h1
    omega
  · intro s j hs
    subst hs
    exact sentKey_lt_ordKey hk j

theorem claim6_witness :
    37 < 2 ^ 63 ∧
    (ordKey 37 = reverseBits64 (37 ||| HI_MASK) ∧
      (∀ b, b < 2 ^ 63 → sentKey b = reverseBits64 b ∧ ordKey 37 ≠ sentKey b) ∧
      (∀ s j, s = 2 ^ j → sentKey (37 % s) < ordKey 37)) :=
  ⟨by decide, claim6 37 (by decide)⟩

/-- C7: Parent relation and initialization termination.  For every bucket
index `b` with `0 < b < size` and `size` a power of two, `get_parent`
returns `b` with its highest set bit cleared — `b - 2^t` for the `t`
with `2^t ≤ b < 2^(t+1)` — which is strictly less than `b`, so the
recursion in `initialize_bucket` strictly decreases and reaches the
bucket-0 base case (which is why fuel `b + 1` suffices in the model). -/
theorem claim7 (size b j : Nat) (hsz : size = 2 ^ j) (h0 : 0 < b) (hlt : b < size) :
    (∃ t, 2 ^ t ≤ b ∧ b < 2 ^ (t + 1) ∧ get_parent size b = b - 2 ^ t) ∧
    get_parent size b < b := by
  obtain ⟨t, h1, h2, h3, h4⟩ := get_parent_char hsz h0 hlt
  exact ⟨⟨t, h1, h2, h3⟩, h4⟩

theorem claim7_witness :
    (8 : Nat) = 2 ^ 3 ∧
    ((∃ t, 2 ^ t ≤ 5 ∧ 5 < 2 ^ (t + 1) ∧ get_parent 8 5 = 5 - 2 ^ t) ∧
      get_parent 8 5 < 5) :=
  ⟨by decide, claim7 8 5 3 (by decide) (by decide) (by decide)⟩

/-- C8: Lookup is pure.  For every valid key, `lookup` leaves the live
entries (the entries carrying payloads), the element count, and the
bucket count `size` exactly as they were — the only possible change is
the lazy materialization of bucket sentinels. -/
theorem claim8 {V : Type} (ops : List (Op V)) (k : Nat)
    (hval : ∀ op ∈ ops, op.key < 2 ^ 63) (hk : k < 2 ^ 63) :
    ((runOps SplitOrderedList.new ops).lookup k).1.list.filter (fun p => p.2.isSome) =
      (runOps SplitOrderedList.new ops).list.filter (fun p => p.2.isSome) ∧
    ((runOps SplitOrderedList.new ops).lookup k).1.count =
      (runOps SplitOrderedList.new ops).count ∧
    ((runOps SplitOrderedList.new ops).lookup k).1.size =
      (runOps SplitOrderedList.new ops).size := by
  obtain ⟨_, hext, _⟩ := lookup_spec k (run_inv ops hval) hk
  exact ⟨hext.2.2.1, hext.2.1, hext.1⟩

theorem claim8_witness :
    (∀ op ∈ ([Op.ins 37 37] : List (Op Nat)), op.key < 2 ^ 63) ∧
    (((runOps (SplitOrderedList.new (V := Nat)) [Op.ins 37 37]).lookup 42).1.list.filter
        (fun p => p.2.isSome) =
      (runOps (SplitOrderedList.new (V := Nat)) [Op.ins 37 37]).list.filter
        (fun p => p.2.isSome) ∧
    ((runOps (SplitOrderedList.new (V := Nat)) [Op.ins 37 37]).lookup 42).1.count =
      (runOps (SplitOrderedList.new (V := Nat)) [Op.ins 37 37]).count ∧
    ((runOps (SplitOrderedList.new (V := Nat)) [Op.ins 37 37]).lookup 42).1.size =
      (runOps (SplitOrderedList.new (V := Nat)) [Op.ins 37 37]).size) :=
  ⟨by decide, claim8 [Op.ins 37 37] 42 (by decide) (by decide)⟩

/-- C10: Delete never targets sentinels.  A find at a valid key's
ordinary key never stops on a sentinel (ordinary keys are odd after
reversal, sentinel keys even), so whenever find reports a match the
matched node carries a payload; consequently `delete` returns the
not-found error exactly when the key is absent — the empty-payload
branch of `delete` is unreachable. -/
theorem claim10 {V : Type} (ops : List (Op V)) (k : Nat)
    (hval : ∀ op ∈ ops, op.key < 2 ^ 63) (hk : k < 2 ^ 63) :
    (∀ m1 rest, find (runOps SplitOrderedList.new ops) k = (m1, true, rest) →
      ∃ v tl, rest = (ordKey k, some v) :: tl) ∧
    (((runOps SplitOrderedList.new ops).delete k).2 = Except.error () ↔
      specMap ops k = none) := by
  have hinv := run_inv ops hval
  obtain ⟨hext, hrest, hyes, hno⟩ := find_spec k hinv hk
  obtain ⟨hnoneD, hsomeD⟩ := delete_spec k hinv hk
  constructor
  · intro m1 rest hf
    have hb : (find (runOps SplitOrderedList.new ops) k).2.1 = true := by rw [hf]
    obtain ⟨v, tl, hcons, _, _⟩ := hyes hb
    rw [hf] at hcons
    exact ⟨v, tl, hcons⟩
  · constructor
    · intro herr
      cases hfk : specMap ops k with
      | none => rfl
      | some w =>
        obtain ⟨hok, _, _, _⟩ := hsomeD w hfk
        rw [herr] at hok
        cases hok
    · intro hfk
      exact (hnoneD hfk).1

theorem claim10_witness :
    (∀ op ∈ ([Op.ins 37 37, Op.del 37] : List (Op Nat)), op.key < 2 ^ 63) ∧
    ((∀ m1 rest,
        find (runOps (SplitOrderedList.new (V := Nat)) [Op.ins 37 37, Op.del 37]) 37 =
          (m1, true, rest) →
        ∃ v tl, rest = (ordKey 37, some v) :: tl) ∧
      (((runOps (SplitOrderedList.new (V := Nat)) [Op.ins 37 37, Op.del 37]).delete 37).2 =
          Except.error () ↔
        specMap [Op.ins 37 37, Op.del 37] 37 = none)) :=
  ⟨by decide, claim10 [Op.ins 37 37, Op.del 37] 37 (by decide) (by decide)⟩

end SplitOrdered

namespace GrowableArray

/-! ### Bit-group arithmetic -/

theorem shiftRight_and_distrib (x y n : Nat) : (x &&& y) >>> n = (x >>> n) &&& (y >>> n) := by
  apply Nat.eq_of_testBit_eq
  intro j
  simp [Nat.testBit_shiftRight, Nat.testBit_and]

theorem get_bits_at_eq (i a : Nat) :
    get_bits_at i ((1 <<< SEGMENT_LOGSIZE) - 1) a =
      i / 2 ^ (a * SEGMENT_LOGSIZE) % 2 ^ SEGMENT_LOGSIZE := by
  unfold get_bits_at
  have hm : (1 <<< SEGMENT_LOGSIZE : Nat) = 2 ^ SEGMENT_LOGSIZE := by
    rw [Nat.shiftLeft_eq, Nat.one_mul]
  rw [hm, shiftRight_and_distrib]
  have h1 : ((2 ^ SEGMENT_LOGSIZE - 1 : Nat) <<< (a * SEGMENT_LOGSIZE)) >>>
      (a * SEGMENT_LOGSIZE) = 2 ^ SEGMENT_LOGSIZE - 1 := by
    rw [Nat.shiftLeft_eq, Nat.shiftRight_eq_div_pow,
      Nat.mul_div_cancel _ (Nat.two_pow_pos _)]
  rw [h1, Nat.and_pow_two_sub_one_eq_mod, Nat.shiftRight_eq_div_pow]

theorem get_bits_at_high_zero {i t : Nat} (h : i < 2 ^ (SEGMENT_LOGSIZE * t)) :
    get_bits_at i ((1 <<< SEGMENT_LOGSIZE) - 1) t = 0 := by
  rw [get_bits_at_eq]
  have hd : i / 2 ^ (t * SEGMENT_LOGSIZE) = 0 := by
    apply Nat.div_eq_of_lt
    rw [Nat.mul_comm t SEGMENT_LOGSIZE]
    exact h
  rw [hd]
  rfl

theorem lt_two_pow_bitLen : ∀ fuel n, n < 2 ^ fuel → n < 2 ^ bitLen fuel n := by
  intro fuel
  induction fuel with
  | zero =>
    intro n h
    exact h
  | succ fuel ih =>
    intro n h
    by_cases h0 : n = 0
    · subst h0
      simp [bitLen]
    · simp only [bitLen, if_neg h0]
      have hps : (2 : Nat) ^ (fuel + 1) = 2 ^ fuel * 2 := Nat.pow_succ 2 fuel
      have h2 : n / 2 < 2 ^ fuel := by omega
      have h3 := ih (n / 2) h2
      have hps2 : (2 : Nat) ^ (bitLen fuel (n / 2) + 1) =
          2 ^ bitLen fuel (n / 2) * 2 := Nat.pow_succ 2 _
      omega

theorem lt_pow_of_requiredHeight {i t : Nat} (hi : i < 2 ^ 64)
    (ht : (if get_msb_index i % SEGMENT_LOGSIZE = 0 then get_msb_index i / SEGMENT_LOGSIZE
           else get_msb_index i / SEGMENT_LOGSIZE + 1) ≤ t) :
    i < 2 ^ (SEGMENT_LOGSIZE * t) := by
  have h1 : i < 2 ^ get_msb_index i := lt_two_pow_bitLen 64 i hi
  have h2 : get_msb_index i ≤ SEGMENT_LOGSIZE * t := by
    by_cases hm : get_msb_index i % SEGMENT_LOGSIZE = 0
    · rw [if_pos hm] at ht
      simp only [SEGMENT_LOGSIZE] at hm ht ⊢
      omega
    · rw [if_neg hm] at ht
      simp only [SEGMENT_LOGSIZE] at hm ht ⊢
      omega
  exact lt_of_lt_of_le h1 (Nat.pow_le_pow_right (by omega) h2)

/-! ### Slot map lemmas -/

theorem slotLookup_head (s : List ((Nat × Nat) × (Nat × Nat))) (key val : Nat × Nat) :
    slotLookup ((key, val) :: s) key = some val := by
  unfold slotLookup
  rw [List.find?_cons_of_pos _ (by simp)]
  rfl

theorem slotLookup_mem {s : List ((Nat × Nat) × (Nat × Nat))} {a v : Nat × Nat}
    (h : slotLookup s a = some v) : (a, v) ∈ s := by
  unfold slotLookup at h
  cases hf : s.find? (fun e => e.1 == a) with
  | none =>
    rw [hf] at h
    cases h
  | some e =>
    rw [hf] at h
    have hm := List.mem_of_find?_eq_some hf
    have hp := List.find?_some hf
    simp only [beq_iff_eq] at hp
    have h2 : e.2 = v := by
      simpa using h
    cases e with
    | mk e1 e2 =>
      simp only at hp h2
      rw [← hp, ← h2]
      exact hm

theorem slotLookup_prepend {s : List ((Nat × Nat) × (Nat × Nat))}
    {key val : Nat × Nat} (hnone : slotLookup s key = none) :
    ∀ a v, slotLookup s a = some v → slotLookup ((key, val) :: s) a = some v := by
  intro a v hv
  have hne : key ≠ a := by
    intro he
    rw [he] at hnone
    rw [hnone] at hv
    cases hv
  unfold slotLookup at hv ⊢
  rw [List.find?_cons_of_neg _ (by simp [hne])]
  exact hv

theorem slotLookup_none_of_fresh {st : GAState} {ht : Nat → Nat} (hwf : WF st ht)
    (off : Nat) : slotLookup st.slots (st.next, off) = none := by
  cases hf : slotLookup st.slots (st.next, off) with
  | none => rfl
  | some v =>
    have hm := slotLookup_mem hf
    have hb := (hwf.slot_ht _ hm).2.2.2.1
    simp only at hb
    omega

theorem slotExt_refl (st : GAState) : SlotExt st st := fun _ _ h => h

theorem slotExt_trans {s1 s2 s3 : GAState} (h1 : SlotExt s1 s2) (h2 : SlotExt s2 s3) :
    SlotExt s1 s3 := fun a v h => h2 a v (h1 a v h)

theorem descendRO_mono : ∀ (fuel : Nat) (st st2 : GAState) (a t i : Nat) (s : Nat × Nat),
    SlotExt st st2 → descendRO fuel st a t i = some s →
    descendRO fuel st2 a t i = some s := by
  intro fuel
  induction fuel with
  | zero =>
    intro _ _ _ _ _ _ _ h
    cases h
  | succ fuel ih =>
    intro st st2 a t i s hext h
    simp only [descendRO] at h ⊢
    by_cases ht1 : t = 1
    · rw [if_pos ht1] at h ⊢
      exact h
    · rw [if_neg ht1] at h ⊢
      cases hsl : slotLookup st.slots
          (a, get_bits_at i ((1 <<< SEGMENT_LOGSIZE) - 1) (t - 1)) with
      | none =>
        rw [hsl] at h
        cases h
      | some ct =>
        rw [hsl] at h
        rw [hext _ _ hsl]
        exact ih st st2 ct.1 ct.2 i s hext h

theorem descend_of_descendRO : ∀ (fuel : Nat) (st : GAState) (a t i : Nat) (s : Nat × Nat),
    descendRO fuel st a t i = some s → descend fuel st a t i = some (st, s) := by
  intro fuel
  induction fuel with
  | zero =>
    intro _ _ _ _ _ h
    cases h
  | succ fuel ih =>
    intro st a t i s h
    simp only [descendRO] at h
    simp only [descend]
    by_cases ht1 : t = 1
    · rw [if_pos ht1] at h ⊢
      injection h with h
      rw [h]
    · rw [if_neg ht1] at h ⊢
      cases hsl : slotLookup st.slots
          (a, get_bits_at i ((1 <<< SEGMENT_LOGSIZE) - 1) (t - 1)) with
      | none =>
        rw [hsl] at h
        cases h
      | some ct =>
        rw [hsl] at h
        exact ih st ct.1 ct.2 i s h

end GrowableArray

namespace GrowableArray

theorem resolve_mono {st st2 : GAState} (hext : SlotExt st st2)
    (hroot : st2.root = st.root) :
    ∀ i0 s0, resolve st i0 = some s0 → resolve st2 i0 = some s0 := by
  intro i0 s0 h
  cases hr : st.root with
  | none =>
    have hn : resolve st i0 = none := by simp [resolve, hr]
    rw [hn] at h
    cases h
  | some rt =>
    have h1 : descendRO (rt.2 + 1) st rt.1 rt.2 i0 = some s0 := by
      have he : resolve st i0 = descendRO (rt.2 + 1) st rt.1 rt.2 i0 := by
        simp [resolve, hr]
      rw [← he]
      exact h
    have h2 : resolve st2 i0 = descendRO (rt.2 + 1) st2 rt.1 rt.2 i0 := by
      simp [resolve, hroot, hr]
    rw [h2]
    exact descendRO_mono (rt.2 + 1) st st2 rt.1 rt.2 i0 s0 hext h1

theorem root_some_of_pos {st : GAState} (h : 1 ≤ rootTag st) :
    ∃ rt, st.root = some rt := by
  cases hr : st.root with
  | none => simp [rootTag, hr] at h
  | some rt => exact ⟨rt, rfl⟩

/-- The descent loop of `get_val_at_index` on a well-formed heap: with fuel
above the entry tag it returns a slot, only extends the heap (preserving
well-formedness and every filled slot), and the resulting slot is the
read-only resolution of the index in the final heap, with leaf offset
`index mod 2^SEGMENT_LOGSIZE`. -/
theorem descend_spec : ∀ (fuel : Nat) (st : GAState) (ht : Nat → Nat) (a t i : Nat),
    WF st ht → ht a = t → 1 ≤ t → a < st.next → t < fuel →
    ∃ st2 s, descend fuel st a t i = some (st2, s) ∧
      st2.root = st.root ∧ SlotExt st st2 ∧ (∃ ht2, WF st2 ht2) ∧
      descendRO fuel st2 a t i = some s ∧ s.2 = i % 2 ^ SEGMENT_LOGSIZE := by
  intro fuel
  induction fuel with
  | zero =>
    intro st ht a t i _ _ _ _ hf
    exact absurd hf (Nat.not_lt_zero t)
  | succ fuel ih =>
    intro st ht a t i hwf hta htpos han hf
    by_cases htone : t = 1
    · subst htone
      refine ⟨st, (a, get_bits_at i ((1 <<< SEGMENT_LOGSIZE) - 1) 0), rfl, rfl,
        slotExt_refl st, ⟨ht, hwf⟩, rfl, ?_⟩
      rw [get_bits_at_eq]
      simp [Nat.zero_mul, Nat.pow_zero, Nat.div_one]
    · have ht2 : 2 ≤ t := by omega
      cases hsl : slotLookup st.slots
          (a, get_bits_at i ((1 <<< SEGMENT_LOGSIZE) - 1) (t - 1)) with
      | some ct =>
        have hm := slotLookup_mem hsl
        have hs1 : ht a = ct.2 + 1 := (hwf.slot_ht _ hm).1
        have hs2 : ht ct.1 = ct.2 := (hwf.slot_ht _ hm).2.1
        have hs3 : 1 ≤ ct.2 := (hwf.slot_ht _ hm).2.2.1
        have hs5 : ct.1 < st.next := (hwf.slot_ht _ hm).2.2.2.2
        obtain ⟨st2, s, hd, hroot, hext, hW, hro, hs2i⟩ :=
          ih st ht ct.1 ct.2 i hwf hs2 hs3 hs5 (by omega)
        refine ⟨st2, s, ?_, hroot, hext, hW, ?_, hs2i⟩
        · show descend (fuel + 1) st a t i = some (st2, s)
          simp only [descend]
          rw [if_neg htone, hsl]
          exact hd
        · show descendRO (fuel + 1) st2 a t i = some s
          simp only [descendRO]
          rw [if_neg htone, hext _ _ hsl]
          exact hro
      | none =>
        have hwf1 : WF { st with next := st.next + 1, slots := ((a, get_bits_at i ((1 <<< SEGMENT_LOGSIZE) - 1) (t - 1)), (st.next, t - 1)) :: st.slots } (fun x => if x = st.next then t - 1 else ht x) := by
          constructor
          · intro ar tr hr
            obtain ⟨g1, g2, g3⟩ := hwf.root_ht ar tr hr
            refine ⟨?_, g2, ?_⟩
            · show (if ar = st.next then t - 1 else ht ar) = tr
              rw [if_neg (by omega : ¬ ar = st.next)]
              exact g1
            · show ar < st.next + 1
              omega
          · intro e he
            rcases List.mem_cons.mp he with he | he
            · subst he
              refine ⟨?_, ?_, ?_, ?_, ?_⟩
              · show (if a = st.next then t - 1 else ht a) = (t - 1) + 1
                rw [if_neg (by omega : ¬ a = st.next), hta]
                omega
              · show (if st.next = st.next then t - 1 else ht st.next) = t - 1
                rw [if_pos rfl]
              · show 1 ≤ t - 1
                omega
              · show a < st.next + 1
                omega
              · show st.next < st.next + 1
                omega
            · obtain ⟨g1, g2, g3, g4, g5⟩ := hwf.slot_ht e he
              refine ⟨?_, ?_, g3, ?_, ?_⟩
              · show (if e.1.1 = st.next then t - 1 else ht e.1.1) = e.2.2 + 1
                rw [if_neg (by omega : ¬ e.1.1 = st.next)]
                exact g1
              · show (if e.2.1 = st.next then t - 1 else ht e.2.1) = e.2.2
                rw [if_neg (by omega : ¬ e.2.1 = st.next)]
                exact g2
              · show e.1.1 < st.next + 1
                omega
              · show e.2.1 < st.next + 1
                omega
        obtain ⟨st2, s, hd, hroot, hext, hW, hro, hs2i⟩ :=
          ih { st with next := st.next + 1, slots := ((a, get_bits_at i ((1 <<< SEGMENT_LOGSIZE) - 1) (t - 1)), (st.next, t - 1)) :: st.slots } (fun x => if x = st.next then t - 1 else ht x) st.next (t - 1) i hwf1
             (by show (if st.next = st.next then t - 1 else ht st.next) = t - 1
                 rw [if_pos rfl])
             (by omega)
             (by show st.next < st.next + 1
                 omega)
             (by omega)
        have hext01 : SlotExt st { st with next := st.next + 1, slots := ((a, get_bits_at i ((1 <<< SEGMENT_LOGSIZE) - 1) (t - 1)), (st.next, t - 1)) :: st.slots } := by
          intro a' v' h'
          exact slotLookup_prepend hsl a' v' h'
        refine ⟨st2, s, ?_, hroot, slotExt_trans hext01 hext, hW, ?_, hs2i⟩
        · show descend (fuel + 1) st a t i = some (st2, s)
          simp only [descend]
          rw [if_neg htone, hsl]
          exact hd
        · show descendRO (fuel + 1) st2 a t i = some s
          simp only [descendRO]
          rw [if_neg htone, hext _ _ (slotLookup_head _ _ _)]
          exact hro

theorem growStep_wf_none {st : GAState} {ht : Nat → Nat} (hwf : WF st ht)
    (hr : st.root = none) :
    WF { root := some (st.next, 1), next := st.next + 1, slots := st.slots }
       (fun x => if x = st.next then 1 else ht x) := by
  constructor
  · intro ar tr hr2
    have hr2' : some (st.next, 1) = some (ar, tr) := hr2
    injection hr2' with h1
    injection h1 with ha hb
    subst ha
    subst hb
    refine ⟨?_, le_refl 1, ?_⟩
    · show (if st.next = st.next then 1 else ht st.next) = 1
      rw [if_pos rfl]
    · show st.next < st.next + 1
      omega
  · intro e he
    obtain ⟨g1, g2, g3, g4, g5⟩ := hwf.slot_ht e he
    refine ⟨?_, ?_, g3, ?_, ?_⟩
    · show (if e.1.1 = st.next then 1 else ht e.1.1) = e.2.2 + 1
      rw [if_neg (by omega : ¬ e.1.1 = st.next)]
      exact g1
    · show (if e.2.1 = st.next then 1 else ht e.2.1) = e.2.2
      rw [if_neg (by omega : ¬ e.2.1 = st.next)]
      exact g2
    · show e.1.1 < st.next + 1
      omega
    · show e.2.1 < st.next + 1
      omega

theorem growStep_wf_some {st : GAState} {rt : Nat × Nat} {ht : Nat → Nat} (hwf : WF st ht)
    (hr : st.root = some rt) :
    WF { root := some (st.next, rt.2 + 1), next := st.next + 1, slots := ((st.next, 0), rt) :: st.slots } (fun x => if x = st.next then rt.2 + 1 else ht x) := by
  have hroot := hwf.root_ht rt.1 rt.2 (by rw [hr])
  obtain ⟨hh1, hh2, hh3⟩ := hroot
  constructor
  · intro ar tr hr2
    have hr2' : some (st.next, rt.2 + 1) = some (ar, tr) := hr2
    injection hr2' with h1
    injection h1 with ha hb
    subst ha
    subst hb
    refine ⟨?_, by omega, ?_⟩
    · show (if st.next = st.next then rt.2 + 1 else ht st.next) = rt.2 + 1
      rw [if_pos rfl]
    · show st.next < st.next + 1
      omega
  · intro e he
    rcases List.mem_cons.mp he with he | he
    · subst he
      refine ⟨?_, ?_, hh2, ?_, ?_⟩
      · show (if st.next = st.next then rt.2 + 1 else ht st.next) = rt.2 + 1
        rw [if_pos rfl]
      · show (if rt.1 = st.next then rt.2 + 1 else ht rt.1) = rt.2
        rw [if_neg (by omega : ¬ rt.1 = st.next)]
        exact hh1
      · show st.next < st.next + 1
        omega
      · show rt.1 < st.next + 1
        omega
    · obtain ⟨g1, g2, g3, g4, g5⟩ := hwf.slot_ht e he
      refine ⟨?_, ?_, g3, ?_, ?_⟩
      · show (if e.1.1 = st.next then rt.2 + 1 else ht e.1.1) = e.2.2 + 1
        rw [if_neg (by omega : ¬ e.1.1 = st.next)]
        exact g1
      · show (if e.2.1 = st.next then rt.2 + 1 else ht e.2.1) = e.2.2
        rw [if_neg (by omega : ¬ e.2.1 = st.next)]
        exact g2
      · show e.1.1 < st.next + 1
        omega
      · show e.2.1 < st.next + 1
        omega

theorem growStep_pres {st : GAState} {rt : Nat × Nat} {ht : Nat → Nat} (hwf : WF st ht)
    (hr : st.root = some rt) (i0 : Nat) (s0 : Nat × Nat)
    (hres : resolve st i0 = some s0)
    (hbound : i0 < 2 ^ (SEGMENT_LOGSIZE * rootTag st)) :
    resolve { root := some (st.next, rt.2 + 1), next := st.next + 1, slots := ((st.next, 0), rt) :: st.slots } i0 = some s0 := by
  have hrt : rootTag st = rt.2 := by simp [rootTag, hr]
  have h2 : 1 ≤ rt.2 := (hwf.root_ht rt.1 rt.2 (by rw [hr])).2.1
  have hdro : descendRO (rt.2 + 1) st rt.1 rt.2 i0 = some s0 := by
    have he : resolve st i0 = descendRO (rt.2 + 1) st rt.1 rt.2 i0 := by
      simp [resolve, hr]
    rw [← he]
    exact hres
  have hext1 : SlotExt st { root := some (st.next, rt.2 + 1), next := st.next + 1, slots := ((st.next, 0), rt) :: st.slots } := by
    intro a' v' h'
    exact slotLookup_prepend (slotLookup_none_of_fresh hwf 0) a' v' h'
  show descendRO (rt.2 + 1 + 1) { root := some (st.next, rt.2 + 1), next := st.next + 1, slots := ((st.next, 0), rt) :: st.slots } st.next (rt.2 + 1) i0 = some s0
  simp only [descendRO]
  rw [if_neg (by omega : ¬ rt.2 + 1 = 1), Nat.add_sub_cancel]
  have hind : get_bits_at i0 ((1 <<< SEGMENT_LOGSIZE) - 1) rt.2 = 0 := by
    apply get_bits_at_high_zero
    rw [← hrt]
    exact hbound
  rw [hind, slotLookup_head]
  exact descendRO_mono (rt.2 + 1) st _ rt.1 rt.2 i0 s0 hext1 hdro

theorem ensureRootGo_noop : ∀ (fuel : Nat) (st : GAState) (h : Nat),
    h ≤ rootTag st → ensureRootGo fuel st h = st := by
  intro fuel st h hle
  cases fuel with
  | zero => rfl
  | succ fuel =>
    simp only [ensureRootGo]
    rw [if_neg (by omega : ¬ rootTag st < h)]

/-- `ensure_root_height` on a well-formed heap: the result is well formed,
every filled slot is preserved, the root tag becomes the maximum of the old
tag and the requested height, and every index already resolvable within the
old height still resolves to the same slot. -/
theorem ensureRootGo_spec : ∀ (fuel : Nat) (st : GAState) (ht : Nat → Nat) (h : Nat),
    WF st ht → h ≤ fuel + rootTag st →
    (∃ ht2, WF (ensureRootGo fuel st h) ht2) ∧
    SlotExt st (ensureRootGo fuel st h) ∧
    rootTag (ensureRootGo fuel st h) = max (rootTag st) h ∧
    (∀ i0 s0, resolve st i0 = some s0 → i0 < 2 ^ (SEGMENT_LOGSIZE * rootTag st) →
      resolve (ensureRootGo fuel st h) i0 = some s0) := by
  intro fuel
  induction fuel with
  | zero =>
    intro st ht h hwf hle
    have hgo : ensureRootGo 0 st h = st := rfl
    rw [hgo]
    exact ⟨⟨ht, hwf⟩, slotExt_refl st, (max_eq_left (by omega)).symm,
      fun i0 s0 hr _ => hr⟩
  | succ fuel ih =>
    intro st ht h hwf hle
    by_cases hlt : rootTag st < h
    · cases hr : st.root with
      | none =>
        have hrt0 : rootTag st = 0 := by simp [rootTag, hr]
        have hgo : ensureRootGo (fuel + 1) st h =
            ensureRootGo fuel { root := some (st.next, 1), next := st.next + 1, slots := st.slots } h := by
          simp only [ensureRootGo]
          rw [if_pos hlt, hr, hrt0]
        have hwf1 := growStep_wf_none hwf hr
        obtain ⟨hW, hextR, hmaxR, hpresR⟩ :=
          ih { root := some (st.next, 1), next := st.next + 1, slots := st.slots }
            (fun x => if x = st.next then 1 else ht x) h hwf1
            (by show h ≤ fuel + 1; omega)
        rw [hgo]
        refine ⟨hW, slotExt_trans (fun a v hv => hv) hextR, ?_, ?_⟩
        · rw [hmaxR]
          show max 1 h = max (rootTag st) h
          rw [hrt0, max_eq_right (by omega : (1 : Nat) ≤ h),
            max_eq_right (Nat.zero_le h)]
        · intro i0 s0 hres hbound
          exfalso
          have hn : resolve st i0 = none := by simp [resolve, hr]
          rw [hn] at hres
          cases hres
      | some rt =>
        have hrt : rootTag st = rt.2 := by simp [rootTag, hr]
        have hgo : ensureRootGo (fuel + 1) st h =
            ensureRootGo fuel { root := some (st.next, rt.2 + 1), next := st.next + 1, slots := ((st.next, 0), rt) :: st.slots } h := by
          simp only [ensureRootGo]
          rw [if_pos hlt, hr, hrt]
        have hwf1 := growStep_wf_some hwf hr
        obtain ⟨hW, hextR, hmaxR, hpresR⟩ :=
          ih { root := some (st.next, rt.2 + 1), next := st.next + 1, slots := ((st.next, 0), rt) :: st.slots } (fun x => if x = st.next then rt.2 + 1 else ht x) h hwf1
            (by show h ≤ fuel + (rt.2 + 1); omega)
        have hext1 : SlotExt st { root := some (st.next, rt.2 + 1), next := st.next + 1, slots := ((st.next, 0), rt) :: st.slots } := by
          intro a' v' h'
          exact slotLookup_prepend (slotLookup_none_of_fresh hwf 0) a' v' h'
        rw [hgo]
        refine ⟨hW, slotExt_trans hext1 hextR, ?_, ?_⟩
        · rw [hmaxR]
          show max (rt.2 + 1) h = max (rootTag st) h
          rw [hrt, max_eq_right (by omega : rt.2 + 1 ≤ h),
            max_eq_right (by omega : rt.2 ≤ h)]
        · intro i0 s0 hres hbound
          apply hpresR i0 s0 (growStep_pres hwf hr i0 s0 hres hbound)
          show i0 < 2 ^ (SEGMENT_LOGSIZE * (rt.2 + 1))
          calc i0 < 2 ^ (SEGMENT_LOGSIZE * rootTag st) := hbound
            _ ≤ 2 ^ (SEGMENT_LOGSIZE * (rt.2 + 1)) :=
              Nat.pow_le_pow_right (by omega) (Nat.mul_le_mul_left _ (by omega))
    · have hgo : ensureRootGo (fuel + 1) st h = st := by
        simp only [ensureRootGo]
        rw [if_neg hlt]
      rw [hgo]
      exact ⟨⟨ht, hwf⟩, slotExt_refl st, (max_eq_left (by omega)).symm,
        fun i0 s0 hr _ => hr⟩

end GrowableArray

namespace GrowableArray

/-- `get_val_at_index` after `ensure_root_height` on a well-formed heap with a
non-null root: returns a slot whose offset is the index's low bit group, the
result heap is well formed with root tag at least the requested height, and
previously resolvable indices keep their slots. -/
theorem getAux_spec (st1 : GAState) (ht1 : Nat → Nat) (i H : Nat) (hwf : WF st1 ht1)
    (hpos : 1 ≤ rootTag st1) :
    ∃ st2 s, get_val_at_index (ensureRootGo H st1 H) i = some (st2, s) ∧
      (∃ ht2, WF st2 ht2) ∧ 1 ≤ rootTag st2 ∧ rootTag st1 ≤ rootTag st2 ∧
      H ≤ rootTag st2 ∧ resolve st2 i = some s ∧
      s.2 = i % 2 ^ SEGMENT_LOGSIZE ∧
      (∀ i0 s0, resolve st1 i0 = some s0 → i0 < 2 ^ (SEGMENT_LOGSIZE * rootTag st1) →
        resolve st2 i0 = some s0) := by
  obtain ⟨⟨htE, hwfE⟩, hextE, hmaxE, hpresE⟩ :=
    ensureRootGo_spec H st1 ht1 H hwf (Nat.le_add_right H _)
  obtain ⟨rtE, hrE⟩ := root_some_of_pos
    (show 1 ≤ rootTag (ensureRootGo H st1 H) from by
      rw [hmaxE]; exact le_trans hpos (le_max_left _ _))
  have hrtE2 : rtE.2 = rootTag (ensureRootGo H st1 H) := by simp [rootTag, hrE]
  obtain ⟨hA1, hA2, hA3⟩ := hwfE.root_ht rtE.1 rtE.2 (by rw [hrE])
  obtain ⟨st2, s, hd, hroot2, hext2, hW2, hro2, hs2⟩ :=
    descend_spec (rtE.2 + 1) (ensureRootGo H st1 H) htE rtE.1 rtE.2 i hwfE hA1 hA2 hA3
      (Nat.lt_succ_self _)
  have hrt2 : rootTag st2 = rtE.2 := by simp [rootTag, hroot2, hrE]
  refine ⟨st2, s, ?_, hW2, ?_, ?_, ?_, ?_, hs2, ?_⟩
  · simp only [get_val_at_index]
    rw [hrE]
    exact hd
  · omega
  · rw [hrt2, hrtE2, hmaxE]
    exact le_max_left _ _
  · rw [hrt2, hrtE2, hmaxE]
    exact le_max_right _ _
  · simp only [resolve]
    rw [hroot2, hrE]
    exact hro2
  · intro i0 s0 hres hbound
    exact resolve_mono hext2 hroot2 i0 s0 (hpresE i0 s0 hres hbound)

/-- `GrowableArray::get` on a well-formed heap: always returns a slot, the
result heap is well formed, the root tag only grows and covers the height
required by the index's most significant bit, the returned slot is the
index's resolution with leaf offset `index mod 2^SEGMENT_LOGSIZE`, and every
index already resolvable within the old height keeps its slot. -/
theorem get_spec (st : GAState) (ht : Nat → Nat) (i : Nat) (hwf : WF st ht) :
    ∃ st2 s, get st i = some (st2, s) ∧
      (∃ ht2, WF st2 ht2) ∧
      1 ≤ rootTag st2 ∧
      rootTag st ≤ rootTag st2 ∧
      (if get_msb_index i % SEGMENT_LOGSIZE = 0 then get_msb_index i / SEGMENT_LOGSIZE
       else get_msb_index i / SEGMENT_LOGSIZE + 1) ≤ rootTag st2 ∧
      resolve st2 i = some s ∧
      s.2 = i % 2 ^ SEGMENT_LOGSIZE ∧
      (∀ i0 s0, resolve st i0 = some s0 → i0 < 2 ^ (SEGMENT_LOGSIZE * rootTag st) →
        resolve st2 i0 = some s0) := by
  cases hr : st.root with
  | some rt =>
    have hrt : rootTag st = rt.2 := by simp [rootTag, hr]
    have hpos : 1 ≤ rootTag st := by
      have := (hwf.root_ht rt.1 rt.2 (by rw [hr])).2.1
      omega
    obtain ⟨st2, s, hg, hW, hpos2, hmono, hH, hres, hs2, hpres⟩ :=
      getAux_spec st ht i
        (if get_msb_index i % SEGMENT_LOGSIZE = 0 then get_msb_index i / SEGMENT_LOGSIZE
         else get_msb_index i / SEGMENT_LOGSIZE + 1) hwf hpos
    refine ⟨st2, s, ?_, hW, hpos2, hmono, hH, hres, hs2, hpres⟩
    show get st i = some (st2, s)
    simp only [get, ensure_root_height]
    rw [hr]
    exact hg
  | none =>
    have hrt0 : rootTag st = 0 := by simp [rootTag, hr]
    have hwf1 := growStep_wf_none hwf hr
    obtain ⟨st2, s, hg, hW, hpos2, hmono, hH, hres, hs2, hpres⟩ :=
      getAux_spec { root := some (st.next, 1), next := st.next + 1, slots := st.slots }
        (fun x => if x = st.next then 1 else ht x) i
        (if get_msb_index i % SEGMENT_LOGSIZE = 0 then get_msb_index i / SEGMENT_LOGSIZE
         else get_msb_index i / SEGMENT_LOGSIZE + 1) hwf1 (le_refl 1)
    refine ⟨st2, s, ?_, hW, hpos2, ?_, hH, hres, hs2, ?_⟩
    · show get st i = some (st2, s)
      simp only [get, ensure_root_height]
      rw [hr]
      exact hg
    · rw [hrt0]
      exact Nat.zero_le _
    · intro i0 s0 hres0 hb0
      exfalso
      have hn : resolve st i0 = none := by simp [resolve, hr]
      rw [hn] at hres0
      cases hres0

/-- Running any sequence of `get` calls preserves well-formedness, never
shrinks the root tag, and keeps the slot of every index resolvable within
the current height. -/
theorem runGets_spec : ∀ (l : List Nat) (st : GAState) (ht : Nat → Nat), WF st ht →
    (∃ ht2, WF (runGets st l) ht2) ∧ rootTag st ≤ rootTag (runGets st l) ∧
    (∀ i0 s0, resolve st i0 = some s0 → i0 < 2 ^ (SEGMENT_LOGSIZE * rootTag st) →
      resolve (runGets st l) i0 = some s0) := by
  intro l
  induction l with
  | nil =>
    intro st ht hwf
    exact ⟨⟨ht, hwf⟩, le_refl _, fun i0 s0 h _ => h⟩
  | cons j l ih =>
    intro st ht hwf
    obtain ⟨st2, s, hg, ⟨ht2, hwf2⟩, hpos2, hmono2, hH2, hres2, hs2, hpres2⟩ :=
      get_spec st ht j hwf
    have hrun : runGets st (j :: l) = runGets st2 l := by
      simp only [runGets, List.foldl_cons, hg]
    obtain ⟨hW, hmonoR, hpresR⟩ := ih st2 ht2 hwf2
    rw [hrun]
    refine ⟨hW, le_trans hmono2 hmonoR, ?_⟩
    intro i0 s0 hres hbound
    apply hpresR i0 s0 (hpres2 i0 s0 hres hbound)
    calc i0 < 2 ^ (SEGMENT_LOGSIZE * rootTag st) := hbound
      _ ≤ 2 ^ (SEGMENT_LOGSIZE * rootTag st2) :=
        Nat.pow_le_pow_right (by omega) (Nat.mul_le_mul_left _ hmono2)

/-- C9: Growable array slot stability.  For every index `i` (a 64-bit
`usize`), `get` resolves `i` by partitioning its bits into
`SEGMENT_LOGSIZE`-bit groups — the group used at the level with height tag
`a + 1` is `i / 2 ^ (a * SEGMENT_LOGSIZE) % 2 ^ SEGMENT_LOGSIZE`, most
significant at the root down to group 0, `i mod 2 ^ SEGMENT_LOGSIZE`, which
is the returned slot's offset in its leaf segment — and after any further
sequence of `get` calls (which may grow the root height to accommodate
larger indices), `get` at `i` returns the same slot. -/
theorem claim9 (st : GAState) (ht : Nat → Nat) (i : Nat) (st1 : GAState)
    (s1 : Nat × Nat) (l : List Nat) (hwf : WF st ht) (hi : i < 2 ^ 64)
    (hget : get st i = some (st1, s1)) :
    (∀ a, get_bits_at i ((1 <<< SEGMENT_LOGSIZE) - 1) a =
        i / 2 ^ (a * SEGMENT_LOGSIZE) % 2 ^ SEGMENT_LOGSIZE) ∧
    s1.2 = i % 2 ^ SEGMENT_LOGSIZE ∧
    (get (runGets st1 l) i).map (fun r => r.2) = some s1 := by
  obtain ⟨st2, s, hg, ⟨ht2, hwf2⟩, hpos2, hmono2, hH2, hres2, hs2, hpres2⟩ :=
    get_spec st ht i hwf
  rw [hget] at hg
  have hpair : st1 = st2 ∧ s1 = s := by
    injection hg with hg
    exact ⟨congrArg Prod.fst hg, congrArg Prod.snd hg⟩
  obtain ⟨he1, he2⟩ := hpair
  subst he1
  subst he2
  refine ⟨fun a => get_bits_at_eq i a, hs2, ?_⟩
  have hbound1 : i < 2 ^ (SEGMENT_LOGSIZE * rootTag st1) :=
    lt_pow_of_requiredHeight hi hH2
  obtain ⟨hWf, hmonoF, hpresF⟩ := runGets_spec l st1 ht2 hwf2
  have hresf : resolve (runGets st1 l) i = some s1 := hpresF i s1 hres2 hbound1
  obtain ⟨rtf, hrf⟩ := root_some_of_pos (le_trans hpos2 hmonoF)
  have hdrof : descendRO (rtf.2 + 1) (runGets st1 l) rtf.1 rtf.2 i = some s1 := by
    have he : resolve (runGets st1 l) i =
        descendRO (rtf.2 + 1) (runGets st1 l) rtf.1 rtf.2 i := by
      simp [resolve, hrf]
    rw [← he]
    exact hresf
  have hstep : get (runGets st1 l) i =
      get_val_at_index (ensureRootGo
        (if get_msb_index i % SEGMENT_LOGSIZE = 0 then get_msb_index i / SEGMENT_LOGSIZE
         else get_msb_index i / SEGMENT_LOGSIZE + 1) (runGets st1 l)
        (if get_msb_index i % SEGMENT_LOGSIZE = 0 then get_msb_index i / SEGMENT_LOGSIZE
         else get_msb_index i / SEGMENT_LOGSIZE + 1)) i := by
    simp only [get, ensure_root_height, hrf]
  have hHle : (if get_msb_index i % SEGMENT_LOGSIZE = 0 then
        get_msb_index i / SEGMENT_LOGSIZE
      else get_msb_index i / SEGMENT_LOGSIZE + 1) ≤ rootTag (runGets st1 l) :=
    le_trans hH2 hmonoF
  have hval : get_val_at_index (runGets st1 l) i = some (runGets st1 l, s1) := by
    simp only [get_val_at_index]
    rw [hrf]
    exact descend_of_descendRO _ _ _ _ _ _ hdrof
  rw [hstep, ensureRootGo_noop _ _ _ hHle, hval]
  rfl

/-- Witness for the C9 theorem at the empty growable array: `get` at index 5
materializes a height-1 root and returns the slot `(0, 5)`; after a further
`get` at index 2000 (which grows the root to height 2), `get` at 5 still
returns `(0, 5)`. -/
theorem claim9_witness :
    WF GAState.new (fun _ => 0) ∧ (5 : Nat) < 2 ^ 64 ∧
    get GAState.new 5 = some (⟨some (0, 1), 1, []⟩, (0, 5)) ∧
    ((∀ a, get_bits_at 5 ((1 <<< SEGMENT_LOGSIZE) - 1) a =
        5 / 2 ^ (a * SEGMENT_LOGSIZE) % 2 ^ SEGMENT_LOGSIZE) ∧
      ((0, 5) : Nat × Nat).2 = 5 % 2 ^ SEGMENT_LOGSIZE ∧
      (get (runGets (⟨some (0, 1), 1, []⟩ : GAState) [2000]) 5).map (fun r => r.2) =
        some (0, 5)) := by
  have hwf : WF GAState.new (fun _ => 0) :=
    ⟨fun a t h => (nomatch h), fun e he => nomatch he⟩
  exact ⟨hwf, by decide, by rfl,
    claim9 GAState.new (fun _ => 0) 5 ⟨some (0, 1), 1, []⟩ (0, 5) [2000] hwf
      (by decide) (by rfl)⟩

end GrowableArray
